import Mathlib

/-!
Verification of the nearest-integer floating-point operations of
libc/src/__support/FPUtil/NearestIntegerOperations.h.

The header is generic over an IEEE-style binary floating-point format.  We
embed a format as its exponent-field width and fraction width, and a value of
the floating type as its bit fields (sign, biased exponent, mantissa).  The
semantics of a bit pattern is given by an exact integer scaling of its real
value: scaled b = value(b) * 2 ^ (FRACTION_LEN + EXP_BIAS - 1), which is an
integer for every representable value (including subnormals).
-/

set_option maxHeartbeats 1000000

namespace fputil

/-- Modelled from the spec: the per-format metadata of the external bit-field
abstraction (FPBits.h, outside src/): an IEEE-style binary format is described
by the width of its exponent field and the width of its fraction (mantissa)
field.  Formats with an implicit leading significand bit are modelled, so
SIG_MASK = FRACTION_MASK and EXPLICIT_BIT = SIG_MASK - FRACTION_MASK = 0. -/
structure FPFormat where
  exp_len : Nat
  fraction_len : Nat
deriving DecidableEq

/-- Modelled from the spec: the exponent bias of the format,
2 ^ (exp_len - 1) - 1 (external constant table). -/
def FPFormat.EXP_BIAS (fmt : FPFormat) : Nat := 2 ^ (fmt.exp_len - 1) - 1

/-- The scale used by the integer semantics: every representable value times
2 ^ unitExp is an integer, and the floating value 1.0 scales to 2 ^ unitExp. -/
def FPFormat.unitExp (fmt : FPFormat) : Nat := fmt.fraction_len + fmt.EXP_BIAS - 1

/-- Sanity conditions every real-world binary format satisfies (binary16/32/64
/128 and the 8-bit minifloat all do): at least two exponent bits, at least one
fraction bit, and an exponent range wide enough to express every integer with
FRACTION_LEN + 1 significant bits. -/
def FPFormat.Good (fmt : FPFormat) : Prop :=
  2 ≤ fmt.exp_len ∧ 1 ≤ fmt.fraction_len ∧ fmt.fraction_len ≤ fmt.EXP_BIAS

instance (fmt : FPFormat) : Decidable fmt.Good := by
  unfold FPFormat.Good; infer_instance

/-- Modelled from the spec: the external bit-field view of one floating value
(FPBits.h, outside src/): sign, biased exponent field, mantissa field. -/
structure FPBits (fmt : FPFormat) where
  sign : Bool
  biased_exp : Nat
  mantissa : Nat
deriving DecidableEq

variable {fmt : FPFormat}

/-- A bit pattern is valid when each field fits in its width. -/
def FPBits.Valid (b : FPBits fmt) : Prop :=
  b.biased_exp < 2 ^ fmt.exp_len ∧ b.mantissa < 2 ^ fmt.fraction_len

instance (b : FPBits fmt) : Decidable b.Valid := by
  unfold FPBits.Valid; infer_instance

/-- Modelled from the spec: FPBits::get_exponent, the unbiased exponent. -/
def FPBits.get_exponent (b : FPBits fmt) : Int :=
  (b.biased_exp : Int) - fmt.EXP_BIAS

/-- Modelled from the spec: FPBits::get_mantissa. -/
def FPBits.get_mantissa (b : FPBits fmt) : Nat := b.mantissa

/-- Modelled from the spec: FPBits::is_inf_or_nan (all-ones exponent field). -/
def FPBits.is_inf_or_nan (b : FPBits fmt) : Bool :=
  b.biased_exp == 2 ^ fmt.exp_len - 1

/-- Modelled from the spec: FPBits::is_nan (all-ones exponent, nonzero
mantissa). -/
def FPBits.is_nan (b : FPBits fmt) : Bool :=
  b.biased_exp == 2 ^ fmt.exp_len - 1 && b.mantissa != 0

/-- Modelled from the spec: FPBits::is_zero. -/
def FPBits.is_zero (b : FPBits fmt) : Bool :=
  b.biased_exp == 0 && b.mantissa == 0

/-- Modelled from the spec: FPBits::is_neg. -/
def FPBits.is_neg (b : FPBits fmt) : Bool := b.sign

/-- Modelled from the spec: FPBits::is_pos. -/
def FPBits.is_pos (b : FPBits fmt) : Bool := !b.sign

/-- Modelled from the spec: FPBits::zero(sign), a signed zero. -/
def FPBits.zero (fmt : FPFormat) (s : Bool) : FPBits fmt := ⟨s, 0, 0⟩

/-- Modelled from the spec: FPBits::one(sign), i.e. the value ±1.0 (also used
for the literals T(1.0) and T(-1.0)). -/
def FPBits.one (fmt : FPFormat) (s : Bool) : FPBits fmt := ⟨s, fmt.EXP_BIAS, 0⟩

/-- The value ±2.0, used for the literals T(2.0) and T(-2.0). -/
def FPBits.two (fmt : FPFormat) (s : Bool) : FPBits fmt := ⟨s, fmt.EXP_BIAS + 1, 0⟩

/-- Modelled from the spec: FPBits::quiet_nan() (all-ones exponent, top
mantissa bit set). -/
def FPBits.quiet_nan (fmt : FPFormat) : FPBits fmt :=
  ⟨false, 2 ^ fmt.exp_len - 1, 2 ^ (fmt.fraction_len - 1)⟩

/-- Modelled from the spec: FPBits::create_value(sign, biased_exp, sig):
build a value from explicit fields; each field is masked into its width. -/
def FPBits.create_value (fmt : FPFormat) (s : Bool) (e m : Nat) : FPBits fmt :=
  ⟨s, e % 2 ^ fmt.exp_len, m % 2 ^ fmt.fraction_len⟩

/-- Modelled from the spec: FPBits::uintval(), the whole storage word:
sign bit on top, then the exponent field, then the mantissa field. -/
def FPBits.uintval (b : FPBits fmt) : Nat :=
  (cond b.sign 1 0) * 2 ^ (fmt.exp_len + fmt.fraction_len) +
    b.biased_exp * 2 ^ fmt.fraction_len + b.mantissa

/-- Modelled from the spec: rebuilding the bit-field view from a storage word
(FPBits::set_uintval / the FPBits(StorageType) constructor). -/
def FPBits.ofUintval (fmt : FPFormat) (u : Nat) : FPBits fmt :=
  ⟨u / 2 ^ (fmt.exp_len + fmt.fraction_len) % 2 == 1,
   u / 2 ^ fmt.fraction_len % 2 ^ fmt.exp_len,
   u % 2 ^ fmt.fraction_len⟩

/-- Modelled from the spec: IEEE negation `-x` flips the sign bit. -/
def FPBits.neg (b : FPBits fmt) : FPBits fmt := ⟨!b.sign, b.biased_exp, b.mantissa⟩

/-- The exact integer semantics of a bit pattern: its real value multiplied by
2 ^ fmt.unitExp.  Subnormal encodings (biased exponent 0) denote
mantissa * 2 ^ (1 - EXP_BIAS - FRACTION_LEN); normal encodings denote
(2 ^ FRACTION_LEN + mantissa) * 2 ^ (biased_exp - EXP_BIAS - FRACTION_LEN). -/
def FPBits.scaled (b : FPBits fmt) : Int :=
  if b.biased_exp = 0 then
    (if b.sign then -(b.mantissa : Int) else (b.mantissa : Int))
  else
    (if b.sign then
      -(((2 ^ fmt.fraction_len + b.mantissa : Nat) : Int) * 2 ^ (b.biased_exp - 1))
    else
      ((2 ^ fmt.fraction_len + b.mantissa : Nat) : Int) * 2 ^ (b.biased_exp - 1))

/-- The integer part (toward zero) of the magnitude of a value. -/
def FPBits.floorMag (b : FPBits fmt) : Nat := b.scaled.natAbs / 2 ^ fmt.unitExp

/-- Floor of the base-2 logarithm, by structural recursion on a fuel bound so
that it evaluates inside the kernel (Nat.log2 uses well-founded recursion and
does not). -/
def nlog2Fuel : Nat → Nat → Nat
  | 0, _ => 0
  | fuel + 1, n => if n ≤ 1 then 0 else nlog2Fuel fuel (n / 2) + 1

/-- Floor of the base-2 logarithm of n (0 for n = 0). -/
def nlog2 (n : Nat) : Nat := nlog2Fuel n n

/-- Modelled from the spec: correctly-rounded (to nearest, ties to even)
conversion of a natural number into the format; this is the default-mode IEEE
result of any arithmetic whose exact result is n.  All uses in this file are
exact (n has at most FRACTION_LEN + 1 significant bits) except the
computation of fromfp's range_max, where the rounding is the point. -/
def roundNatRNE (fmt : FPFormat) (s : Bool) (n : Nat) : FPBits fmt :=
  if n = 0 then FPBits.zero fmt s
  else
    let e := nlog2 n
    if e ≤ fmt.fraction_len then
      ⟨s, e + fmt.EXP_BIAS, (n - 2 ^ e) * 2 ^ (fmt.fraction_len - e)⟩
    else
      let shift := e - fmt.fraction_len
      let q := n / 2 ^ shift
      let r := n % 2 ^ shift
      let half := 2 ^ (shift - 1)
      let q2 := if half < r ∨ (r = half ∧ q % 2 = 1) then q + 1 else q
      if q2 = 2 ^ (fmt.fraction_len + 1) then ⟨s, e + 1 + fmt.EXP_BIAS, 0⟩
      else ⟨s, e + fmt.EXP_BIAS, q2 - 2 ^ fmt.fraction_len⟩

/-- Modelled from the spec: the floating additions `trunc_value + T(1.0)`
(positive branch) and `trunc_value - T(1.0)` (negative branch) of the header,
both of which move an integral value one unit away from zero.  They are exact
because every call site guarantees the result is representable. -/
def awayOne (b : FPBits fmt) : FPBits fmt :=
  roundNatRNE fmt b.sign (b.floorMag + 1)

/-- Modelled from the spec: the floating subtraction `v - T(1.0)` applied by
fromfp to the power of two v = 2 ^ k it synthesizes from bit fields; carried
out in the default (round-to-nearest-even) ambient mode, so the result is the
nearest representable value to 2 ^ k - 1 (exact only when k ≤ FRACTION_LEN+1). -/
def fpSubOne (b : FPBits fmt) : FPBits fmt :=
  roundNatRNE fmt b.sign (b.floorMag - 1)

/-- Modelled from the spec: the IEEE `<` comparison on floating values (false
whenever either side is a NaN; -0 and +0 compare equal). -/
def fpLt (a b : FPBits fmt) : Bool :=
  !a.is_nan && !b.is_nan && decide (a.scaled < b.scaled)

/-- Modelled from the spec: the IEEE `!=` comparison on floating values (true
whenever either side is a NaN; -0 and +0 compare equal). -/
def fpNe (a b : FPBits fmt) : Bool :=
  a.is_nan || b.is_nan || decide (a.scaled ≠ b.scaled)

/-- Modelled from the spec: the write-side floating-point environment effects
of one call (FEnvImpl.h, outside src/): which IEEE exceptions were raised via
raise_except_if_required and whether set_errno_if_required(EDOM) was called. -/
structure FPEnvSignals where
  invalid : Bool
  inexact : Bool
  errno_edom : Bool
deriving DecidableEq

/-- No signal raised. -/
def noSignals : FPEnvSignals := ⟨false, false, false⟩

/-- Modelled from the spec: the FP_INT_* rounding-direction selector macros of
the external hdr/math_macros.h, with the repository's values. -/
def FP_INT_UPWARD : Int := 0

/-- Modelled from the spec: see FP_INT_UPWARD. -/
def FP_INT_DOWNWARD : Int := 1

/-- Modelled from the spec: see FP_INT_UPWARD. -/
def FP_INT_TOWARDZERO : Int := 2

/-- Modelled from the spec: see FP_INT_UPWARD. -/
def FP_INT_TONEARESTFROMZERO : Int := 3

/-- Modelled from the spec: see FP_INT_UPWARD. -/
def FP_INT_TONEAREST : Int := 4

/-- trunc (NearestIntegerOperations.h lines 24-52). -/
def trunc (x : FPBits fmt) : FPBits fmt :=
  if x.is_inf_or_nan then x
  else
    let exponent : Int := x.get_exponent
    if (fmt.fraction_len : Int) ≤ exponent then x
    else if exponent ≤ -1 then FPBits.zero fmt x.sign
    else
      let trim_size : Nat := fmt.fraction_len - exponent.toNat
      let trunc_mantissa : Nat := x.get_mantissa >>> trim_size <<< trim_size
      ⟨x.sign, x.biased_exp, trunc_mantissa⟩

/-- ceil (NearestIntegerOperations.h lines 54-95). -/
def ceil (x : FPBits fmt) : FPBits fmt :=
  if x.is_inf_or_nan || x.is_zero then x
  else
    let is_neg := x.is_neg
    let exponent : Int := x.get_exponent
    if (fmt.fraction_len : Int) ≤ exponent then x
    else if exponent ≤ -1 then
      if is_neg then FPBits.zero fmt true else FPBits.one fmt false
    else
      let trim_size : Nat := fmt.fraction_len - exponent.toNat
      let x_u := x.uintval
      let trunc_u := x_u >>> trim_size <<< trim_size
      if trunc_u = x_u then x
      else
        let trunc_value := FPBits.ofUintval fmt trunc_u
        if is_neg then trunc_value else awayOne trunc_value

/-- floor (NearestIntegerOperations.h lines 97-105). -/
def floor (x : FPBits fmt) : FPBits fmt :=
  if x.is_neg then (ceil x.neg).neg else trunc x

/-- round, i.e. round half away from zero
(NearestIntegerOperations.h lines 107-154). -/
def round (x : FPBits fmt) : FPBits fmt :=
  if x.is_inf_or_nan || x.is_zero then x
  else
    let exponent : Int := x.get_exponent
    if (fmt.fraction_len : Int) ≤ exponent then x
    else if exponent = -1 then FPBits.one fmt x.sign
    else if exponent ≤ -2 then FPBits.zero fmt x.sign
    else
      let trim_size : Nat := fmt.fraction_len - exponent.toNat
      let half_bit_set : Bool := x.get_mantissa &&& (1 <<< (trim_size - 1)) != 0
      let x_u := x.uintval
      let trunc_u := x_u >>> trim_size <<< trim_size
      if trunc_u = x_u then x
      else
        let trunc_value := FPBits.ofUintval fmt trunc_u
        if !half_bit_set then trunc_value else awayOne trunc_value

/-- round_using_specific_rounding_mode
(NearestIntegerOperations.h lines 156-244).  The C++ switch statements are
rendered as chains of equality tests; their final else branch is the shared
`case FP_INT_TONEAREST: default:` label. -/
def round_using_specific_rounding_mode (x : FPBits fmt) (rnd : Int) : FPBits fmt :=
  if x.is_inf_or_nan || x.is_zero then x
  else
    let is_neg := x.is_neg
    let exponent : Int := x.get_exponent
    if (fmt.fraction_len : Int) ≤ exponent then x
    else if exponent ≤ -1 then
      if rnd = FP_INT_DOWNWARD then
        (if is_neg then FPBits.one fmt true else FPBits.zero fmt false)
      else if rnd = FP_INT_UPWARD then
        (if is_neg then FPBits.zero fmt true else FPBits.one fmt false)
      else if rnd = FP_INT_TOWARDZERO then
        (if is_neg then FPBits.zero fmt true else FPBits.zero fmt false)
      else if rnd = FP_INT_TONEARESTFROMZERO then
        (if exponent < -1 then (if is_neg then FPBits.zero fmt true else FPBits.zero fmt false)
         else (if is_neg then FPBits.one fmt true else FPBits.one fmt false))
      else
        (if exponent ≤ -2 ∨ x.get_mantissa = 0 then
          (if is_neg then FPBits.zero fmt true else FPBits.zero fmt false)
         else (if is_neg then FPBits.one fmt true else FPBits.one fmt false))
    else
      let trim_size : Nat := fmt.fraction_len - exponent.toNat
      let x_u := x.uintval
      let trunc_u := x_u >>> trim_size <<< trim_size
      if trunc_u = x_u then x
      else
        let new_bits := FPBits.ofUintval fmt trunc_u
        let trunc_value := new_bits
        let trim_value := x.get_mantissa &&& ((1 <<< trim_size) - 1)
        let half_value := 1 <<< (trim_size - 1)
        let trunc_is_odd : Bool := new_bits.get_mantissa &&& (1 <<< trim_size) != 0
        if rnd = FP_INT_DOWNWARD then
          (if is_neg then awayOne trunc_value else trunc_value)
        else if rnd = FP_INT_UPWARD then
          (if is_neg then trunc_value else awayOne trunc_value)
        else if rnd = FP_INT_TOWARDZERO then trunc_value
        else if rnd = FP_INT_TONEARESTFROMZERO then
          (if half_value ≤ trim_value then awayOne trunc_value else trunc_value)
        else
          (if half_value < trim_value then awayOne trunc_value
           else if trim_value = half_value then
             (if exponent = 0 then (if is_neg then FPBits.two fmt true else FPBits.two fmt false)
              else if trunc_is_odd then awayOne trunc_value
              else trunc_value)
           else trunc_value)

/-- fromfp (NearestIntegerOperations.h lines 265-333).  EXPLICIT_BIT =
SIG_MASK - FRACTION_MASK = 0 for the implicit-leading-bit formats modelled
here, so the significand argument of create_value is 0.  The second component
records the environment signals of the call. -/
def fromfp (isSigned : Bool) (x : FPBits fmt) (rnd : Int) (width : Nat) :
    FPBits fmt × FPEnvSignals :=
  if width = 0 then (FPBits.quiet_nan fmt, ⟨true, false, false⟩)
  else if x.is_inf_or_nan then (FPBits.quiet_nan fmt, ⟨true, false, false⟩)
  else
    let rounded_value := round_using_specific_rounding_mode x rnd
    if isSigned then
      if fmt.EXP_BIAS < width - 1 then (rounded_value, noSignals)
      else
        let range_exp := width - 1 + fmt.EXP_BIAS
        let range_min := FPBits.create_value fmt true range_exp 0
        if fpLt rounded_value range_min then (FPBits.quiet_nan fmt, ⟨true, false, false⟩)
        else
          let range_max := fpSubOne (FPBits.create_value fmt false range_exp 0)
          if fpLt range_max rounded_value then (FPBits.quiet_nan fmt, ⟨true, false, false⟩)
          else (rounded_value, noSignals)
    else
      if fpLt rounded_value (FPBits.zero fmt false) then
        (FPBits.quiet_nan fmt, ⟨true, false, false⟩)
      else if fmt.EXP_BIAS < width then (rounded_value, noSignals)
      else
        let range_exp := width + fmt.EXP_BIAS
        let range_max := fpSubOne (FPBits.create_value fmt false range_exp 0)
        if fpLt range_max rounded_value then (FPBits.quiet_nan fmt, ⟨true, false, false⟩)
        else (rounded_value, noSignals)

/-- fromfpx (NearestIntegerOperations.h lines 335-345). -/
def fromfpx (isSigned : Bool) (x : FPBits fmt) (rnd : Int) (width : Nat) :
    FPBits fmt × FPEnvSignals :=
  let r := fromfp isSigned x rnd width
  if !r.1.is_nan && fpNe r.1 x then (r.1, ⟨r.2.invalid, true, r.2.errno_edom⟩)
  else r

/-- Modelled from the spec: C++ static_cast from the floating type to a signed
integer type, i.e. truncation toward zero; every call site guarantees the
value fits in the target type. -/
def FPBits.intCast (b : FPBits fmt) : Int :=
  if b.sign then -(b.floorMag : Int) else (b.floorMag : Int)

/-- internal::rounded_float_to_signed_integer for a W-bit two's-complement
integer type (NearestIntegerOperations.h lines 349-385).  INTEGER_MIN =
IntType(1) << (W-1) = -2^(W-1) and INTEGER_MAX = -(INTEGER_MIN + 1). -/
def rounded_float_to_signed_integer (W : Nat) (x : FPBits fmt) :
    Int × FPEnvSignals :=
  let INTEGER_MIN : Int := -(2 ^ (W - 1))
  let INTEGER_MAX : Int := -(INTEGER_MIN + 1)
  if x.is_inf_or_nan then
    (if x.is_neg then INTEGER_MIN else INTEGER_MAX, ⟨true, false, true⟩)
  else
    let exponent := x.get_exponent
    let EXPONENT_LIMIT : Int := (W : Int) - 1
    if EXPONENT_LIMIT < exponent then
      (if x.is_neg then INTEGER_MIN else INTEGER_MAX, ⟨true, false, true⟩)
    else if exponent = EXPONENT_LIMIT then
      if x.is_pos || x.get_mantissa != 0 then
        (if x.is_neg then INTEGER_MIN else INTEGER_MAX, ⟨true, false, true⟩)
      else (x.intCast, noSignals)
    else (x.intCast, noSignals)

/-- round_to_signed_integer (NearestIntegerOperations.h lines 389-396). -/
def round_to_signed_integer (W : Nat) (x : FPBits fmt) : Int × FPEnvSignals :=
  rounded_float_to_signed_integer W (round x)

/-- The IEEE binary64 format. -/
def binary64 : FPFormat := ⟨11, 52⟩

/-- An 8-bit minifloat format (4 exponent bits, bias 7, 3 fraction bits),
used for concrete witnesses. -/
def mini8 : FPFormat := ⟨4, 3⟩

/-- Sign factor of a sign bit. -/
def sgnInt (s : Bool) : Int := if s then -1 else 1

/-- The magnitude of the scaled semantics, as a natural number. -/
def FPBits.magScaled (b : FPBits fmt) : Nat :=
  if b.biased_exp = 0 then b.mantissa
  else (2 ^ fmt.fraction_len + b.mantissa) * 2 ^ (b.biased_exp - 1)

/-- A bit pattern denotes an integer (its scaled magnitude is a multiple of
the scaled value of 1.0). -/
def FPBits.IsIntegral (b : FPBits fmt) : Prop :=
  2 ^ fmt.unitExp ∣ b.magScaled

instance (b : FPBits fmt) : Decidable b.IsIntegral := by
  unfold FPBits.IsIntegral
  exact Nat.decidable_dvd _ _

@[simp]
lemma mk_sign (s : Bool) (be m : Nat) : (FPBits.mk s be m : FPBits fmt).sign = s := rfl

@[simp]
lemma mk_biased_exp (s : Bool) (be m : Nat) :
    (FPBits.mk s be m : FPBits fmt).biased_exp = be := rfl

@[simp]
lemma mk_mantissa (s : Bool) (be m : Nat) :
    (FPBits.mk s be m : FPBits fmt).mantissa = m := rfl

lemma nlog2Fuel_bounds :
    ∀ fuel n, n ≤ fuel → 1 ≤ n →
      2 ^ nlog2Fuel fuel n ≤ n ∧ n < 2 ^ (nlog2Fuel fuel n + 1) := by
  intro fuel
  induction fuel with
  | zero =>
    intro n h1 h2
    omega
  | succ fuel ih =>
    intro n h1 h2
    unfold nlog2Fuel
    by_cases hn : n ≤ 1
    · rw [if_pos hn]
      constructor
      · simpa using h2
      · norm_num
        omega
    · rw [if_neg hn]
      have hm1 : n / 2 ≤ fuel := by omega
      have hm2 : 1 ≤ n / 2 := by omega
      obtain ⟨ha, hb⟩ := ih (n / 2) hm1 hm2
      constructor
      · rw [pow_succ]
        have h3 : 2 ^ nlog2Fuel fuel (n / 2) * 2 ≤ n / 2 * 2 := by omega
        omega
      · rw [pow_succ]
        have h3 : (n / 2 + 1) * 2 ≤ 2 ^ (nlog2Fuel fuel (n / 2) + 1) * 2 := by omega
        omega

lemma nlog2_self_le (n : Nat) (h : 1 ≤ n) : 2 ^ nlog2 n ≤ n :=
  (nlog2Fuel_bounds n n (le_refl n) h).1

lemma lt_nlog2_self (n : Nat) : n < 2 ^ (nlog2 n + 1) := by
  rcases Nat.eq_zero_or_pos n with h | h
  · subst h
    norm_num
  · exact (nlog2Fuel_bounds n n (le_refl n) h).2

lemma scaled_eq_sgn_mag (b : FPBits fmt) :
    b.scaled = sgnInt b.sign * b.magScaled := by
  unfold FPBits.scaled FPBits.magScaled sgnInt
  rcases h : b.sign <;> rcases h2 : b.biased_exp <;> simp

lemma natAbs_scaled (b : FPBits fmt) : b.scaled.natAbs = b.magScaled := by
  rw [scaled_eq_sgn_mag]
  rcases h : b.sign <;> simp [sgnInt]

lemma floorMag_eq (b : FPBits fmt) :
    b.floorMag = b.magScaled / 2 ^ fmt.unitExp := by
  rw [FPBits.floorMag, natAbs_scaled]

lemma EXP_BIAS_pos (h : fmt.Good) : 1 ≤ fmt.EXP_BIAS := by
  obtain ⟨h1, -, -⟩ := h
  have : 2 ^ 1 ≤ 2 ^ (fmt.exp_len - 1) := Nat.pow_le_pow_right (by norm_num) (by omega)
  unfold FPFormat.EXP_BIAS
  omega

lemma exp_all_ones (h : fmt.Good) : 2 ^ fmt.exp_len - 1 = 2 * fmt.EXP_BIAS + 1 := by
  obtain ⟨h1, -, -⟩ := h
  have h2 : 2 ^ fmt.exp_len = 2 * 2 ^ (fmt.exp_len - 1) := by
    rw [← pow_succ']
    congr 1
    omega
  have h3 : 1 ≤ 2 ^ (fmt.exp_len - 1) := Nat.one_le_two_pow
  unfold FPFormat.EXP_BIAS
  omega

lemma unitExp_add_one (h : fmt.Good) :
    fmt.unitExp + 1 = fmt.fraction_len + fmt.EXP_BIAS := by
  have := EXP_BIAS_pos h
  unfold FPFormat.unitExp
  omega

lemma nat_trim (m t : Nat) : m >>> t <<< t = 2 ^ t * (m / 2 ^ t) := by
  rw [Nat.shiftRight_eq_div_pow, Nat.shiftLeft_eq]
  ring

lemma nat_trim_eq_sub_mod (m t : Nat) : m >>> t <<< t = m - m % 2 ^ t := by
  rw [nat_trim]
  have := Nat.div_add_mod m (2 ^ t)
  omega

/-- Trimming the low t ≤ FRACTION_LEN bits of the storage word only trims the
mantissa field. -/
lemma uintval_trim (b : FPBits fmt) (t : Nat) (ht : t ≤ fmt.fraction_len) :
    b.uintval >>> t <<< t =
      (FPBits.mk b.sign b.biased_exp (b.mantissa >>> t <<< t) : FPBits fmt).uintval := by
  have h1 : 2 ^ fmt.fraction_len = 2 ^ t * 2 ^ (fmt.fraction_len - t) := by
    rw [← pow_add]
    congr 1
    omega
  have h2 : 2 ^ (fmt.exp_len + fmt.fraction_len) =
      2 ^ t * 2 ^ (fmt.exp_len + fmt.fraction_len - t) := by
    rw [← pow_add]
    congr 1
    omega
  rw [nat_trim_eq_sub_mod, nat_trim_eq_sub_mod]
  unfold FPBits.uintval
  simp only
  rw [h1, h2]
  have e1 : cond b.sign 1 0 * (2 ^ t * 2 ^ (fmt.exp_len + fmt.fraction_len - t)) +
      b.biased_exp * (2 ^ t * 2 ^ (fmt.fraction_len - t)) + b.mantissa =
      2 ^ t * (cond b.sign 1 0 * 2 ^ (fmt.exp_len + fmt.fraction_len - t) +
        b.biased_exp * 2 ^ (fmt.fraction_len - t)) + b.mantissa := by ring
  rw [e1, Nat.mul_add_mod]
  have hm : b.mantissa % 2 ^ t ≤ b.mantissa := Nat.mod_le _ _
  have hm2 : b.mantissa % 2 ^ t ≤ 2 ^ t * (cond b.sign 1 0 *
      2 ^ (fmt.exp_len + fmt.fraction_len - t) +
      b.biased_exp * 2 ^ (fmt.fraction_len - t)) + b.mantissa := by omega
  zify [hm, hm2]
  ring

/-- Rebuilding the bit fields from the storage word is the identity on valid
bit patterns. -/
lemma ofUintval_uintval (b : FPBits fmt) (hb : b.Valid) :
    FPBits.ofUintval fmt b.uintval = b := by
  obtain ⟨he, hm⟩ := hb
  have hEpos : (0:Nat) < 2 ^ fmt.exp_len := Nat.pos_pow_of_pos _ (by norm_num)
  have hFpos : (0:Nat) < 2 ^ fmt.fraction_len := Nat.pos_pow_of_pos _ (by norm_num)
  have hEF : 2 ^ (fmt.exp_len + fmt.fraction_len) =
      2 ^ fmt.exp_len * 2 ^ fmt.fraction_len := by rw [pow_add]
  unfold FPBits.ofUintval FPBits.uintval
  have c01 : cond b.sign 1 0 = 1 ∨ cond b.sign 1 0 = 0 := by
    rcases b.sign <;> simp
  have hmod : (cond b.sign 1 0 * 2 ^ (fmt.exp_len + fmt.fraction_len) +
      b.biased_exp * 2 ^ fmt.fraction_len + b.mantissa) % 2 ^ fmt.fraction_len =
      b.mantissa := by
    rw [hEF]
    have e1 : cond b.sign 1 0 * (2 ^ fmt.exp_len * 2 ^ fmt.fraction_len) +
        b.biased_exp * 2 ^ fmt.fraction_len + b.mantissa =
        2 ^ fmt.fraction_len * (cond b.sign 1 0 * 2 ^ fmt.exp_len + b.biased_exp) +
          b.mantissa := by ring
    rw [e1, Nat.mul_add_mod, Nat.mod_eq_of_lt hm]
  have hdiv : (cond b.sign 1 0 * 2 ^ (fmt.exp_len + fmt.fraction_len) +
      b.biased_exp * 2 ^ fmt.fraction_len + b.mantissa) / 2 ^ fmt.fraction_len =
      cond b.sign 1 0 * 2 ^ fmt.exp_len + b.biased_exp := by
    rw [hEF]
    have e1 : cond b.sign 1 0 * (2 ^ fmt.exp_len * 2 ^ fmt.fraction_len) +
        b.biased_exp * 2 ^ fmt.fraction_len + b.mantissa =
        2 ^ fmt.fraction_len * (cond b.sign 1 0 * 2 ^ fmt.exp_len + b.biased_exp) +
          b.mantissa := by ring
    rw [e1, Nat.mul_add_div hFpos, Nat.div_eq_of_lt hm, Nat.add_zero]
  have hdiv2 : (cond b.sign 1 0 * 2 ^ (fmt.exp_len + fmt.fraction_len) +
      b.biased_exp * 2 ^ fmt.fraction_len + b.mantissa) /
        2 ^ (fmt.exp_len + fmt.fraction_len) = cond b.sign 1 0 := by
    have hsmall : b.biased_exp * 2 ^ fmt.fraction_len + b.mantissa <
        2 ^ (fmt.exp_len + fmt.fraction_len) := by
      rw [hEF]
      calc b.biased_exp * 2 ^ fmt.fraction_len + b.mantissa
          < b.biased_exp * 2 ^ fmt.fraction_len + 2 ^ fmt.fraction_len := by omega
        _ = (b.biased_exp + 1) * 2 ^ fmt.fraction_len := by ring
        _ ≤ 2 ^ fmt.exp_len * 2 ^ fmt.fraction_len :=
          Nat.mul_le_mul_right _ (by omega)
    have e1 : cond b.sign 1 0 * 2 ^ (fmt.exp_len + fmt.fraction_len) +
        b.biased_exp * 2 ^ fmt.fraction_len + b.mantissa =
        2 ^ (fmt.exp_len + fmt.fraction_len) * cond b.sign 1 0 +
          (b.biased_exp * 2 ^ fmt.fraction_len + b.mantissa) := by ring
    rw [e1, Nat.mul_add_div (Nat.pos_pow_of_pos _ (by norm_num)),
      Nat.div_eq_of_lt hsmall, Nat.add_zero]
  simp only [hmod, hdiv, hdiv2]
  have hsign : (cond b.sign 1 0 % 2 == 1) = b.sign := by
    rcases b.sign <;> simp
  have hexp : (cond b.sign 1 0 * 2 ^ fmt.exp_len + b.biased_exp) % 2 ^ fmt.exp_len =
      b.biased_exp := by
    rw [Nat.add_comm, Nat.add_mul_mod_self_right, Nat.mod_eq_of_lt he]
  rw [hsign, hexp]

/-- The storage word is unchanged by trimming t mantissa bits iff those bits
are zero. -/
lemma uintval_trim_eq_iff (b : FPBits fmt) (t : Nat)
    (ht : t ≤ fmt.fraction_len) :
    b.uintval >>> t <<< t = b.uintval ↔ b.mantissa % 2 ^ t = 0 := by
  rw [uintval_trim b t ht]
  unfold FPBits.uintval
  simp only
  rw [nat_trim_eq_sub_mod]
  have := Nat.mod_le b.mantissa (2 ^ t)
  omega

lemma trimmed_valid (b : FPBits fmt) (hb : b.Valid) (t : Nat) :
    (FPBits.mk b.sign b.biased_exp (b.mantissa >>> t <<< t) : FPBits fmt).Valid := by
  obtain ⟨he, hm⟩ := hb
  refine ⟨he, ?_⟩
  rw [nat_trim_eq_sub_mod]
  simp only
  omega

lemma scaled_zero (s : Bool) : (FPBits.zero fmt s).scaled = 0 := by
  unfold FPBits.zero FPBits.scaled
  rcases s <;> simp

lemma magScaled_one (h : fmt.Good) (s : Bool) :
    (FPBits.one fmt s).magScaled = 2 ^ fmt.unitExp := by
  have h1 := EXP_BIAS_pos h
  unfold FPBits.one FPBits.magScaled FPFormat.unitExp
  simp only
  rw [if_neg (by omega), Nat.add_zero, ← pow_add]
  congr 1
  omega

lemma scaled_one (h : fmt.Good) (s : Bool) :
    (FPBits.one fmt s).scaled = sgnInt s * 2 ^ fmt.unitExp := by
  rw [scaled_eq_sgn_mag, magScaled_one h]
  push_cast
  try rfl

lemma magScaled_two (h : fmt.Good) (s : Bool) :
    (FPBits.two fmt s).magScaled = 2 ^ (fmt.unitExp + 1) := by
  have h1 := EXP_BIAS_pos h
  unfold FPBits.two FPBits.magScaled
  simp only
  rw [if_neg (by omega), Nat.add_zero, ← pow_add, unitExp_add_one h]
  simp

lemma scaled_two (h : fmt.Good) (s : Bool) :
    (FPBits.two fmt s).scaled = sgnInt s * 2 ^ (fmt.unitExp + 1) := by
  rw [scaled_eq_sgn_mag, magScaled_two h]
  push_cast
  try rfl

lemma is_inf_or_nan_iff (b : FPBits fmt) :
    b.is_inf_or_nan = true ↔ b.biased_exp = 2 ^ fmt.exp_len - 1 := by
  unfold FPBits.is_inf_or_nan
  simp

lemma not_inf_or_nan (b : FPBits fmt) (hG : fmt.Good)
    (h : b.biased_exp < 2 * fmt.EXP_BIAS + 1) : b.is_inf_or_nan = false := by
  unfold FPBits.is_inf_or_nan
  rw [exp_all_ones hG]
  simp
  omega

lemma is_zero_iff (b : FPBits fmt) :
    b.is_zero = true ↔ b.biased_exp = 0 ∧ b.mantissa = 0 := by
  unfold FPBits.is_zero
  simp

lemma get_exponent_toNat (b : FPBits fmt) (h : fmt.EXP_BIAS ≤ b.biased_exp) :
    b.get_exponent.toNat = b.biased_exp - fmt.EXP_BIAS := by
  unfold FPBits.get_exponent
  omega

lemma magScaled_zero_exp (b : FPBits fmt) (h : b.biased_exp = 0) :
    b.magScaled = b.mantissa := by
  unfold FPBits.magScaled
  rw [if_pos h]

lemma magScaled_pos_exp (b : FPBits fmt) (h : b.biased_exp ≠ 0) :
    b.magScaled = (2 ^ fmt.fraction_len + b.mantissa) * 2 ^ (b.biased_exp - 1) := by
  unfold FPBits.magScaled
  rw [if_neg h]

lemma magScaled_mk (s : Bool) (be m : Nat) (hbe : be ≠ 0) :
    (FPBits.mk s be m : FPBits fmt).magScaled =
      (2 ^ fmt.fraction_len + m) * 2 ^ (be - 1) := by
  rw [magScaled_pos_exp _ hbe]

/-- In the middle region bias ≤ biased_exp < FRACTION_LEN + bias, integrality
is exactly divisibility of the mantissa by 2 ^ trim_size. -/
lemma isIntegral_iff_mod (b : FPBits fmt) (hG : fmt.Good)
    (h1 : fmt.EXP_BIAS ≤ b.biased_exp)
    (h2 : b.biased_exp < fmt.fraction_len + fmt.EXP_BIAS) :
    b.IsIntegral ↔
      b.mantissa % 2 ^ (fmt.fraction_len + fmt.EXP_BIAS - b.biased_exp) = 0 := by
  have hbias := EXP_BIAS_pos hG
  set t := fmt.fraction_len + fmt.EXP_BIAS - b.biased_exp with ht
  have htF : t ≤ fmt.fraction_len := by omega
  have hbe : b.biased_exp ≠ 0 := by omega
  unfold FPBits.IsIntegral
  rw [magScaled_pos_exp b hbe]
  have hu : fmt.unitExp = t + (b.biased_exp - 1) := by
    unfold FPFormat.unitExp
    omega
  rw [hu, pow_add]
  rw [Nat.mul_dvd_mul_iff_right (Nat.pos_pow_of_pos _ (by norm_num))]
  constructor
  · intro hdvd
    have hF : 2 ^ t ∣ 2 ^ fmt.fraction_len := pow_dvd_pow 2 htF
    have : 2 ^ t ∣ b.mantissa := (Nat.dvd_add_right hF).mp hdvd
    omega
  · intro hmod
    have hmdvd : 2 ^ t ∣ b.mantissa := Nat.dvd_of_mod_eq_zero hmod
    exact Nat.dvd_add (pow_dvd_pow 2 htF) hmdvd

lemma isIntegral_top (b : FPBits fmt) (hG : fmt.Good)
    (h : fmt.fraction_len + fmt.EXP_BIAS ≤ b.biased_exp) : b.IsIntegral := by
  obtain ⟨-, hG2, -⟩ := hG
  have hbe : b.biased_exp ≠ 0 := by omega
  unfold FPBits.IsIntegral
  rw [magScaled_pos_exp b hbe]
  have : 2 ^ fmt.unitExp ∣ 2 ^ (b.biased_exp - 1) := by
    apply pow_dvd_pow
    unfold FPFormat.unitExp
    omega
  exact Dvd.dvd.mul_left this _

/-- An integral value whose magnitude is below 1 is a signed zero. -/
lemma isIntegral_small (b : FPBits fmt) (hG : fmt.Good) (hV : b.Valid)
    (h : b.biased_exp < fmt.EXP_BIAS) (hI : b.IsIntegral) :
    b.biased_exp = 0 ∧ b.mantissa = 0 := by
  obtain ⟨hG1, hG2, hG3⟩ := hG
  obtain ⟨hVe, hVm⟩ := hV
  unfold FPBits.IsIntegral at hI
  by_cases hbe : b.biased_exp = 0
  · refine ⟨hbe, ?_⟩
    rw [magScaled_zero_exp b hbe] at hI
    have hlt : b.mantissa < 2 ^ fmt.unitExp := by
      calc b.mantissa < 2 ^ fmt.fraction_len := hVm
        _ ≤ 2 ^ fmt.unitExp := by
          apply Nat.pow_le_pow_right (by norm_num)
          unfold FPFormat.unitExp
          omega
    rcases hI with ⟨c, hc⟩
    rcases c with - | c
    · omega
    · rw [hc] at hlt
      have h2 : 2 ^ fmt.unitExp ≤ 2 ^ fmt.unitExp * (c + 1) :=
        Nat.le_mul_of_pos_right _ (by omega)
      exact absurd hlt (not_lt.mpr h2)
  · exfalso
    rw [magScaled_pos_exp b hbe] at hI
    have hub : (2 ^ fmt.fraction_len + b.mantissa) * 2 ^ (b.biased_exp - 1) <
        2 ^ fmt.unitExp := by
      calc (2 ^ fmt.fraction_len + b.mantissa) * 2 ^ (b.biased_exp - 1)
          < 2 ^ (fmt.fraction_len + 1) * 2 ^ (b.biased_exp - 1) := by
            have hstep : 2 ^ fmt.fraction_len + b.mantissa <
                2 ^ (fmt.fraction_len + 1) := by
              rw [pow_succ]
              omega
            exact (mul_lt_mul_right (Nat.pos_pow_of_pos _ (by norm_num))).mpr hstep
        _ = 2 ^ (fmt.fraction_len + 1 + (b.biased_exp - 1)) := by rw [← pow_add]
        _ ≤ 2 ^ fmt.unitExp := by
          apply Nat.pow_le_pow_right (by norm_num)
          unfold FPFormat.unitExp
          omega
    have hpos : 0 < (2 ^ fmt.fraction_len + b.mantissa) * 2 ^ (b.biased_exp - 1) := by
      apply Nat.mul_pos
      · have : (0:Nat) < 2 ^ fmt.fraction_len := Nat.pos_pow_of_pos _ (by norm_num)
        omega
      · exact Nat.pos_pow_of_pos _ (by norm_num)
    have := Nat.le_of_dvd hpos hI
    omega

/-- trunc in the high region: the value is already integral and returned
unchanged (this also covers infinities and NaNs). -/
lemma trunc_top (b : FPBits fmt)
    (h : fmt.fraction_len + fmt.EXP_BIAS ≤ b.biased_exp) : trunc b = b := by
  unfold trunc
  by_cases hinf : b.is_inf_or_nan = true
  · rw [if_pos hinf]
  · rw [if_neg hinf, if_pos]
    unfold FPBits.get_exponent
    omega

/-- trunc in the low region |x| < 1: a signed zero. -/
lemma trunc_small (b : FPBits fmt) (hG : fmt.Good)
    (h : b.biased_exp < fmt.EXP_BIAS) : trunc b = FPBits.zero fmt b.sign := by
  have hGc := hG
  obtain ⟨hG1, hG2, hG3⟩ := hGc
  unfold trunc
  rw [if_neg (by rw [not_inf_or_nan b hG (by omega)]; simp), if_neg, if_pos]
  · unfold FPBits.get_exponent
    omega
  · unfold FPBits.get_exponent
    omega

/-- trunc in the middle region 0 ≤ e < FRACTION_LEN: the low trim_size
mantissa bits are cleared. -/
lemma trunc_mid (b : FPBits fmt) (hG : fmt.Good)
    (h1 : fmt.EXP_BIAS ≤ b.biased_exp)
    (h2 : b.biased_exp < fmt.fraction_len + fmt.EXP_BIAS) :
    trunc b = ⟨b.sign, b.biased_exp,
      2 ^ (fmt.fraction_len + fmt.EXP_BIAS - b.biased_exp) *
        (b.mantissa / 2 ^ (fmt.fraction_len + fmt.EXP_BIAS - b.biased_exp))⟩ := by
  obtain ⟨hG1, hG2, hG3⟩ := hG
  unfold trunc
  rw [if_neg (by rw [not_inf_or_nan b ⟨hG1, hG2, hG3⟩ (by omega)]; simp), if_neg, if_neg]
  · simp only [FPBits.get_mantissa]
    rw [get_exponent_toNat b h1, nat_trim]
    have ht : fmt.fraction_len - (b.biased_exp - fmt.EXP_BIAS) =
        fmt.fraction_len + fmt.EXP_BIAS - b.biased_exp := by omega
    rw [ht]
  · unfold FPBits.get_exponent
    omega
  · unfold FPBits.get_exponent
    omega

lemma sgnInt_mul_abs (s : Bool) (z : Int) : |sgnInt s * z| = |z| := by
  rcases s <;> simp [sgnInt]

lemma abs_scaled (b : FPBits fmt) : |b.scaled| = (b.magScaled : Int) := by
  rw [scaled_eq_sgn_mag, sgnInt_mul_abs]
  exact abs_of_nonneg (by positivity)

lemma trunc_sign (b : FPBits fmt) (hG : fmt.Good) : (trunc b).sign = b.sign := by
  by_cases h1 : fmt.fraction_len + fmt.EXP_BIAS ≤ b.biased_exp
  · rw [trunc_top b h1]
  · by_cases h2 : b.biased_exp < fmt.EXP_BIAS
    · rw [trunc_small b hG h2]
      rfl
    · rw [trunc_mid b hG (by omega) (by omega)]

lemma magScaled_small (b : FPBits fmt) (hG : fmt.Good) (hV : b.Valid)
    (h : b.biased_exp < fmt.EXP_BIAS) : b.magScaled < 2 ^ fmt.unitExp := by
  obtain ⟨hG1, hG2, hG3⟩ := hG
  obtain ⟨hVe, hVm⟩ := hV
  by_cases hbe : b.biased_exp = 0
  · rw [magScaled_zero_exp b hbe]
    calc b.mantissa < 2 ^ fmt.fraction_len := hVm
      _ ≤ 2 ^ fmt.unitExp := by
        apply Nat.pow_le_pow_right (by norm_num)
        unfold FPFormat.unitExp
        omega
  · rw [magScaled_pos_exp b hbe]
    calc (2 ^ fmt.fraction_len + b.mantissa) * 2 ^ (b.biased_exp - 1)
        < 2 ^ (fmt.fraction_len + 1) * 2 ^ (b.biased_exp - 1) := by
          have hstep : 2 ^ fmt.fraction_len + b.mantissa <
              2 ^ (fmt.fraction_len + 1) := by
            rw [pow_succ]
            omega
          exact (mul_lt_mul_right (Nat.pos_pow_of_pos _ (by norm_num))).mpr hstep
      _ = 2 ^ (fmt.fraction_len + 1 + (b.biased_exp - 1)) := by rw [← pow_add]
      _ ≤ 2 ^ fmt.unitExp := by
        apply Nat.pow_le_pow_right (by norm_num)
        unfold FPFormat.unitExp
        omega

/-- In the middle region, the truncation drops exactly the trimmed fraction
(mantissa mod 2 ^ trim_size) worth of scaled magnitude. -/
lemma magScaled_trunc_mid (b : FPBits fmt) (hG : fmt.Good)
    (h1 : fmt.EXP_BIAS ≤ b.biased_exp)
    (h2 : b.biased_exp < fmt.fraction_len + fmt.EXP_BIAS) :
    (trunc b).magScaled +
      (b.mantissa % 2 ^ (fmt.fraction_len + fmt.EXP_BIAS - b.biased_exp)) *
        2 ^ (b.biased_exp - 1) = b.magScaled := by
  have hbias := EXP_BIAS_pos hG
  have hbe : b.biased_exp ≠ 0 := by omega
  rw [trunc_mid b hG h1 h2]
  set t := fmt.fraction_len + fmt.EXP_BIAS - b.biased_exp with ht
  rw [magScaled_mk _ _ _ hbe, magScaled_pos_exp b hbe]
  have hsplit : 2 ^ t * (b.mantissa / 2 ^ t) + b.mantissa % 2 ^ t = b.mantissa :=
    Nat.div_add_mod _ _
  calc (2 ^ fmt.fraction_len + 2 ^ t * (b.mantissa / 2 ^ t)) * 2 ^ (b.biased_exp - 1) +
        b.mantissa % 2 ^ t * 2 ^ (b.biased_exp - 1)
      = (2 ^ fmt.fraction_len + (2 ^ t * (b.mantissa / 2 ^ t) + b.mantissa % 2 ^ t)) *
          2 ^ (b.biased_exp - 1) := by ring
    _ = (2 ^ fmt.fraction_len + b.mantissa) * 2 ^ (b.biased_exp - 1) := by rw [hsplit]

lemma trunc_magScaled_le (b : FPBits fmt) (hG : fmt.Good) :
    (trunc b).magScaled ≤ b.magScaled := by
  by_cases h1 : fmt.fraction_len + fmt.EXP_BIAS ≤ b.biased_exp
  · rw [trunc_top b h1]
  · by_cases h2 : b.biased_exp < fmt.EXP_BIAS
    · rw [trunc_small b hG h2]
      unfold FPBits.zero FPBits.magScaled
      simp
    · have := magScaled_trunc_mid b hG (by omega) (by omega)
      omega

lemma trunc_magScaled_diff_lt (b : FPBits fmt) (hG : fmt.Good) (hV : b.Valid) :
    b.magScaled - (trunc b).magScaled < 2 ^ fmt.unitExp := by
  have hbias := EXP_BIAS_pos hG
  by_cases h1 : fmt.fraction_len + fmt.EXP_BIAS ≤ b.biased_exp
  · rw [trunc_top b h1]
    have : (0:Nat) < 2 ^ fmt.unitExp := Nat.pos_pow_of_pos _ (by norm_num)
    omega
  · by_cases h2 : b.biased_exp < fmt.EXP_BIAS
    · have := magScaled_small b hG hV h2
      omega
    · have hkey := magScaled_trunc_mid b hG (by omega) (by omega)
      set t := fmt.fraction_len + fmt.EXP_BIAS - b.biased_exp with ht
      have hmod : b.mantissa % 2 ^ t < 2 ^ t :=
        Nat.mod_lt _ (Nat.pos_pow_of_pos _ (by norm_num))
      have hdrop : b.mantissa % 2 ^ t * 2 ^ (b.biased_exp - 1) < 2 ^ fmt.unitExp := by
        calc b.mantissa % 2 ^ t * 2 ^ (b.biased_exp - 1)
            < 2 ^ t * 2 ^ (b.biased_exp - 1) :=
              (mul_lt_mul_right (Nat.pos_pow_of_pos _ (by norm_num))).mpr hmod
          _ = 2 ^ (t + (b.biased_exp - 1)) := by rw [← pow_add]
          _ ≤ 2 ^ fmt.unitExp := by
            apply Nat.pow_le_pow_right (by norm_num)
            unfold FPFormat.unitExp
            omega
      omega

lemma trunc_valid (b : FPBits fmt) (hG : fmt.Good) (hV : b.Valid) :
    (trunc b).Valid := by
  obtain ⟨hVe, hVm⟩ := hV
  by_cases h1 : fmt.fraction_len + fmt.EXP_BIAS ≤ b.biased_exp
  · rw [trunc_top b h1]
    exact ⟨hVe, hVm⟩
  · by_cases h2 : b.biased_exp < fmt.EXP_BIAS
    · rw [trunc_small b hG h2]
      exact ⟨Nat.pos_pow_of_pos _ (by norm_num), Nat.pos_pow_of_pos _ (by norm_num)⟩
    · rw [trunc_mid b hG (by omega) (by omega)]
      refine ⟨hVe, ?_⟩
      simp only
      calc 2 ^ (fmt.fraction_len + fmt.EXP_BIAS - b.biased_exp) *
            (b.mantissa / 2 ^ (fmt.fraction_len + fmt.EXP_BIAS - b.biased_exp))
          ≤ b.mantissa := by
            rw [← nat_trim, nat_trim_eq_sub_mod]
            omega
        _ < 2 ^ fmt.fraction_len := hVm

lemma trunc_isIntegral (b : FPBits fmt) (hG : fmt.Good) : (trunc b).IsIntegral := by
  by_cases h1 : fmt.fraction_len + fmt.EXP_BIAS ≤ b.biased_exp
  · rw [trunc_top b h1]
    exact isIntegral_top b hG h1
  · by_cases h2 : b.biased_exp < fmt.EXP_BIAS
    · rw [trunc_small b hG h2]
      unfold FPBits.IsIntegral
      rw [magScaled_zero_exp _ rfl]
      simp [FPBits.zero]
    · rw [trunc_mid b hG (by omega) (by omega)]
      rw [isIntegral_iff_mod _ hG (by simp only [mk_biased_exp]; omega)
        (by simp only [mk_biased_exp]; omega)]
      simp only [mk_biased_exp, mk_mantissa]
      exact Nat.mul_mod_right _ _

lemma scaled_nonneg (b : FPBits fmt) (h : b.sign = false) : 0 ≤ b.scaled := by
  rw [scaled_eq_sgn_mag, h]
  unfold sgnInt
  simp

lemma scaled_nonpos (b : FPBits fmt) (h : b.sign = true) : b.scaled ≤ 0 := by
  rw [scaled_eq_sgn_mag, h]
  unfold sgnInt
  simp

lemma magScaled_lt (b : FPBits fmt) (hV : b.Valid) :
    b.magScaled < 2 ^ (fmt.fraction_len + b.biased_exp) := by
  obtain ⟨-, hVm⟩ := hV
  by_cases hbe : b.biased_exp = 0
  · rw [magScaled_zero_exp b hbe, hbe]
    simpa using hVm
  · rw [magScaled_pos_exp b hbe]
    calc (2 ^ fmt.fraction_len + b.mantissa) * 2 ^ (b.biased_exp - 1)
        < 2 ^ (fmt.fraction_len + 1) * 2 ^ (b.biased_exp - 1) := by
          have hstep : 2 ^ fmt.fraction_len + b.mantissa <
              2 ^ (fmt.fraction_len + 1) := by
            rw [pow_succ]
            omega
          exact (mul_lt_mul_right (Nat.pos_pow_of_pos _ (by norm_num))).mpr hstep
      _ = 2 ^ (fmt.fraction_len + 1 + (b.biased_exp - 1)) := by rw [← pow_add]
      _ ≤ 2 ^ (fmt.fraction_len + b.biased_exp) := by
        apply Nat.pow_le_pow_right (by norm_num)
        omega

lemma magScaled_of_integral (b : FPBits fmt) (hI : b.IsIntegral) :
    b.magScaled = b.floorMag * 2 ^ fmt.unitExp := by
  rw [floorMag_eq, Nat.div_mul_cancel hI]

lemma floorMag_lt (b : FPBits fmt) (hG : fmt.Good) (hV : b.Valid)
    (h2 : b.biased_exp < fmt.fraction_len + fmt.EXP_BIAS) :
    b.floorMag < 2 ^ fmt.fraction_len := by
  have hbias := EXP_BIAS_pos hG
  have hlt := magScaled_lt b hV
  rw [floorMag_eq]
  apply Nat.div_lt_of_lt_mul
  calc b.magScaled < 2 ^ (fmt.fraction_len + b.biased_exp) := hlt
    _ ≤ 2 ^ (fmt.fraction_len + (fmt.fraction_len + fmt.EXP_BIAS - 1)) := by
      apply Nat.pow_le_pow_right (by norm_num)
      omega
    _ = 2 ^ fmt.unitExp * 2 ^ fmt.fraction_len := by
      rw [← pow_add]
      congr 1
      unfold FPFormat.unitExp
      omega

lemma roundNatRNE_sign (s : Bool) (n : Nat) : (roundNatRNE fmt s n).sign = s := by
  simp only [roundNatRNE]
  split
  · rfl
  · split
    · rfl
    · split <;> split <;> rfl

/-- For n with at most FRACTION_LEN + 1 significant bits, the rounded
conversion is exact and lands in the exact-encoding branch. -/
lemma roundNatRNE_exact (s : Bool) (n : Nat) (hn1 : 1 ≤ n)
    (hn : n < 2 ^ (fmt.fraction_len + 1)) :
    roundNatRNE fmt s n =
      ⟨s, nlog2 n + fmt.EXP_BIAS,
        (n - 2 ^ nlog2 n) * 2 ^ (fmt.fraction_len - nlog2 n)⟩ := by
  have hlog : nlog2 n ≤ fmt.fraction_len := by
    by_contra hc
    push_neg at hc
    have h1 : 2 ^ nlog2 n ≤ n := nlog2_self_le _ (by omega)
    have h2 : 2 ^ (fmt.fraction_len + 1) ≤ 2 ^ nlog2 n :=
      Nat.pow_le_pow_right (by norm_num) (by omega)
    omega
  unfold roundNatRNE
  rw [if_neg (by omega)]
  simp only [hlog, if_pos]

lemma roundNatRNE_exact_magScaled (hG : fmt.Good) (s : Bool) (n : Nat)
    (hn : n < 2 ^ (fmt.fraction_len + 1)) :
    (roundNatRNE fmt s n).magScaled = n * 2 ^ fmt.unitExp := by
  have hbias := EXP_BIAS_pos hG
  rcases Nat.eq_zero_or_pos n with h0 | hpos
  · subst h0
    unfold roundNatRNE
    rw [if_pos rfl]
    rw [magScaled_zero_exp _ rfl]
    simp [FPBits.zero]
  · rw [roundNatRNE_exact s n hpos hn]
    set e := nlog2 n with he
    have h1 : 2 ^ e ≤ n := nlog2_self_le _ (by omega)
    have h2 : n < 2 ^ (e + 1) := lt_nlog2_self _
    have hlog : e ≤ fmt.fraction_len := by
      by_contra hc
      push_neg at hc
      have h3 : 2 ^ (fmt.fraction_len + 1) ≤ 2 ^ e :=
        Nat.pow_le_pow_right (by norm_num) (by omega)
      omega
    rw [magScaled_mk _ _ _ (by omega)]
    have hF : 2 ^ fmt.fraction_len = 2 ^ (fmt.fraction_len - e) * 2 ^ e := by
      rw [← pow_add]
      congr 1
      omega
    have hmag : 2 ^ fmt.fraction_len + (n - 2 ^ e) * 2 ^ (fmt.fraction_len - e) =
        2 ^ (fmt.fraction_len - e) * n := by
      rw [hF]
      have : (n - 2 ^ e) * 2 ^ (fmt.fraction_len - e) =
          2 ^ (fmt.fraction_len - e) * (n - 2 ^ e) := by ring
      rw [this, ← Nat.mul_add]
      congr 1
      omega
    rw [hmag]
    have hexp : fmt.fraction_len - e + (e + fmt.EXP_BIAS - 1) = fmt.unitExp := by
      unfold FPFormat.unitExp
      omega
    calc 2 ^ (fmt.fraction_len - e) * n * 2 ^ (e + fmt.EXP_BIAS - 1)
        = n * (2 ^ (fmt.fraction_len - e) * 2 ^ (e + fmt.EXP_BIAS - 1)) := by ring
      _ = n * 2 ^ (fmt.fraction_len - e + (e + fmt.EXP_BIAS - 1)) := by rw [← pow_add]
      _ = n * 2 ^ fmt.unitExp := by rw [hexp]

lemma roundNatRNE_exact_valid (hG : fmt.Good) (s : Bool) (n : Nat)
    (hn : n < 2 ^ (fmt.fraction_len + 1)) : (roundNatRNE fmt s n).Valid := by
  obtain ⟨hG1, hG2, hG3⟩ := hG
  have hbias := EXP_BIAS_pos ⟨hG1, hG2, hG3⟩
  have hall := exp_all_ones ⟨hG1, hG2, hG3⟩
  rcases Nat.eq_zero_or_pos n with h0 | hpos
  · subst h0
    unfold roundNatRNE
    rw [if_pos rfl]
    exact ⟨Nat.pos_pow_of_pos _ (by norm_num), Nat.pos_pow_of_pos _ (by norm_num)⟩
  · rw [roundNatRNE_exact s n hpos hn]
    set e := nlog2 n with he
    have h1 : 2 ^ e ≤ n := nlog2_self_le _ (by omega)
    have h2 : n < 2 ^ (e + 1) := lt_nlog2_self _
    have hlog : e ≤ fmt.fraction_len := by
      by_contra hc
      push_neg at hc
      have h3 : 2 ^ (fmt.fraction_len + 1) ≤ 2 ^ e :=
        Nat.pow_le_pow_right (by norm_num) (by omega)
      omega
    constructor
    · simp only [mk_biased_exp]
      omega
    · simp only [mk_mantissa]
      have hsub : n - 2 ^ e < 2 ^ e := by
        rw [pow_succ] at h2
        omega
      calc (n - 2 ^ e) * 2 ^ (fmt.fraction_len - e) <
            2 ^ e * 2 ^ (fmt.fraction_len - e) :=
          (mul_lt_mul_right (Nat.pos_pow_of_pos _ (by norm_num))).mpr hsub
        _ = 2 ^ (e + (fmt.fraction_len - e)) := by rw [← pow_add]
        _ ≤ 2 ^ fmt.fraction_len := Nat.pow_le_pow_right (by norm_num) (by omega)

lemma roundNatRNE_exact_biased_le (s : Bool) (n : Nat)
    (hn : n < 2 ^ (fmt.fraction_len + 1)) :
    (roundNatRNE fmt s n).biased_exp ≤ fmt.fraction_len + fmt.EXP_BIAS := by
  rcases Nat.eq_zero_or_pos n with h0 | hpos
  · subst h0
    unfold roundNatRNE
    rw [if_pos rfl]
    simp [FPBits.zero]
  · rw [roundNatRNE_exact s n hpos hn]
    simp only [mk_biased_exp]
    have h1 : 2 ^ nlog2 n ≤ n := nlog2_self_le _ (by omega)
    have hlog : nlog2 n ≤ fmt.fraction_len := by
      by_contra hc
      push_neg at hc
      have h3 : 2 ^ (fmt.fraction_len + 1) ≤ 2 ^ nlog2 n :=
        Nat.pow_le_pow_right (by norm_num) (by omega)
      omega
    omega

lemma awayOne_sign (b : FPBits fmt) : (awayOne b).sign = b.sign :=
  roundNatRNE_sign _ _

lemma awayOne_magScaled (hG : fmt.Good) (b : FPBits fmt)
    (hn : b.floorMag + 1 < 2 ^ (fmt.fraction_len + 1)) :
    (awayOne b).magScaled = (b.floorMag + 1) * 2 ^ fmt.unitExp := by
  unfold awayOne
  exact roundNatRNE_exact_magScaled hG _ _ hn

lemma awayOne_valid (hG : fmt.Good) (b : FPBits fmt)
    (hn : b.floorMag + 1 < 2 ^ (fmt.fraction_len + 1)) : (awayOne b).Valid := by
  unfold awayOne
  exact roundNatRNE_exact_valid hG _ _ hn

lemma awayOne_isIntegral (hG : fmt.Good) (b : FPBits fmt)
    (hn : b.floorMag + 1 < 2 ^ (fmt.fraction_len + 1)) : (awayOne b).IsIntegral := by
  unfold FPBits.IsIntegral
  rw [awayOne_magScaled hG b hn]
  exact ⟨b.floorMag + 1, by ring⟩

lemma is_zero_false (b : FPBits fmt) (h : b.biased_exp ≠ 0 ∨ b.mantissa ≠ 0) :
    b.is_zero = false := by
  unfold FPBits.is_zero
  rcases h with h | h <;> simp [h]

lemma ceil_pass (b : FPBits fmt) (h : b.is_inf_or_nan = true ∨ b.is_zero = true) :
    ceil b = b := by
  unfold ceil
  rw [if_pos]
  rcases h with h | h <;> simp [h]

lemma ceil_top (b : FPBits fmt) (hG : fmt.Good)
    (h : fmt.fraction_len + fmt.EXP_BIAS ≤ b.biased_exp) : ceil b = b := by
  unfold ceil
  by_cases hc : (b.is_inf_or_nan || b.is_zero) = true
  · rw [if_pos hc]
  · rw [if_neg hc, if_pos]
    unfold FPBits.get_exponent
    omega

lemma ceil_small (b : FPBits fmt) (hG : fmt.Good)
    (h : b.biased_exp < fmt.EXP_BIAS) (hnz : b.is_zero = false) :
    ceil b = if b.sign then FPBits.zero fmt true else FPBits.one fmt false := by
  obtain ⟨hG1, hG2, hG3⟩ := hG
  unfold ceil
  rw [if_neg (by simp [not_inf_or_nan b ⟨hG1, hG2, hG3⟩ (by omega), hnz]),
    if_neg (by unfold FPBits.get_exponent; omega), if_pos (by unfold FPBits.get_exponent; omega)]
  unfold FPBits.is_neg
  rcases b.sign <;> simp

/-- In the middle region, the trimmed storage word equals the storage word of
trunc b, and rebuilding bit fields from it yields trunc b. -/
lemma ofUintval_trim_eq_trunc (b : FPBits fmt) (hG : fmt.Good) (hV : b.Valid)
    (h1 : fmt.EXP_BIAS ≤ b.biased_exp)
    (h2 : b.biased_exp < fmt.fraction_len + fmt.EXP_BIAS) :
    FPBits.ofUintval fmt
        (b.uintval >>> (fmt.fraction_len + fmt.EXP_BIAS - b.biased_exp) <<<
          (fmt.fraction_len + fmt.EXP_BIAS - b.biased_exp)) = trunc b := by
  rw [uintval_trim b _ (by omega),
    ofUintval_uintval _ (trimmed_valid b hV _), trunc_mid b hG h1 h2, nat_trim]

lemma ceil_mid_integral (b : FPBits fmt) (hG : fmt.Good) (hV : b.Valid)
    (h1 : fmt.EXP_BIAS ≤ b.biased_exp)
    (h2 : b.biased_exp < fmt.fraction_len + fmt.EXP_BIAS)
    (hI : b.mantissa % 2 ^ (fmt.fraction_len + fmt.EXP_BIAS - b.biased_exp) = 0) :
    ceil b = b := by
  obtain ⟨hG1, hG2, hG3⟩ := hG
  have hbias : 1 ≤ fmt.EXP_BIAS := EXP_BIAS_pos ⟨hG1, hG2, hG3⟩
  unfold ceil
  rw [if_neg (by
      simp [not_inf_or_nan b ⟨hG1, hG2, hG3⟩ (by omega),
        is_zero_false b (Or.inl (by omega))]),
    if_neg (by unfold FPBits.get_exponent; omega),
    if_neg (by unfold FPBits.get_exponent; omega)]
  simp only
  rw [get_exponent_toNat b h1]
  rw [if_pos]
  rw [uintval_trim_eq_iff b _ (by omega)]
  have ht : fmt.fraction_len - (b.biased_exp - fmt.EXP_BIAS) =
      fmt.fraction_len + fmt.EXP_BIAS - b.biased_exp := by omega
  rw [ht]
  exact hI

lemma ceil_mid_frac (b : FPBits fmt) (hG : fmt.Good) (hV : b.Valid)
    (h1 : fmt.EXP_BIAS ≤ b.biased_exp)
    (h2 : b.biased_exp < fmt.fraction_len + fmt.EXP_BIAS)
    (hI : b.mantissa % 2 ^ (fmt.fraction_len + fmt.EXP_BIAS - b.biased_exp) ≠ 0) :
    ceil b = if b.sign then trunc b else awayOne (trunc b) := by
  obtain ⟨hG1, hG2, hG3⟩ := hG
  have hbias : 1 ≤ fmt.EXP_BIAS := EXP_BIAS_pos ⟨hG1, hG2, hG3⟩
  unfold ceil
  rw [if_neg (by
      simp [not_inf_or_nan b ⟨hG1, hG2, hG3⟩ (by omega),
        is_zero_false b (Or.inl (by omega))]),
    if_neg (by unfold FPBits.get_exponent; omega),
    if_neg (by unfold FPBits.get_exponent; omega)]
  simp only
  rw [get_exponent_toNat b h1]
  have ht : fmt.fraction_len - (b.biased_exp - fmt.EXP_BIAS) =
      fmt.fraction_len + fmt.EXP_BIAS - b.biased_exp := by omega
  rw [ht, if_neg (by rw [uintval_trim_eq_iff b _ (by omega)]; exact hI),
    ofUintval_trim_eq_trunc b ⟨hG1, hG2, hG3⟩ hV h1 h2]
  unfold FPBits.is_neg
  rfl

/-- Claim C4: for finite nonzero x with exponent at most -1 (0 < |x| < 1),
ceil returns +1.0 for positive x and the negative signed zero for negative x;
the sign bit of the negative-zero result is set. -/
theorem claim_C4 (hG : fmt.Good) (x : FPBits fmt) (hnz : x.is_zero = false)
    (hsmall : x.get_exponent ≤ -1) :
    ceil x = (if x.sign then FPBits.zero fmt true else FPBits.one fmt false) ∧
    (x.sign = true → (ceil x).sign = true ∧ (ceil x).scaled = 0) ∧
    (x.sign = false → (ceil x).scaled = 2 ^ fmt.unitExp) := by
  have h : x.biased_exp < fmt.EXP_BIAS := by
    unfold FPBits.get_exponent at hsmall
    omega
  have hmain := ceil_small x hG h hnz
  refine ⟨hmain, ?_, ?_⟩
  · intro hs
    rw [hmain, if_pos hs]
    exact ⟨rfl, scaled_zero true⟩
  · intro hs
    rw [hmain, if_neg (by rw [hs]; exact Bool.false_ne_true)]
    rw [scaled_one hG false]
    simp [sgnInt]

/-- Witness for claim C4 at x = -0.5 and x = 0.5 in the 8-bit minifloat
format (biased exponent 6 encodes exponent -1). -/
theorem claim_C4_witness :
    ((FPBits.mk true 6 0 : FPBits mini8).get_exponent ≤ -1 ∧
      ceil (FPBits.mk true 6 0 : FPBits mini8) = FPBits.zero mini8 true) ∧
    ceil (FPBits.mk false 6 0 : FPBits mini8) = FPBits.one mini8 false :=
  ⟨⟨by decide,
    by
      have h := (claim_C4 (by decide) (FPBits.mk true 6 0 : FPBits mini8)
        (by decide) (by decide)).1
      simpa using h⟩,
   by
     have h := (claim_C4 (by decide) (FPBits.mk false 6 0 : FPBits mini8)
       (by decide) (by decide)).1
     simpa using h⟩

lemma and_one_shiftLeft_ne (m k : Nat) :
    (m &&& (1 <<< k) != 0) = m.testBit k := by
  rw [Nat.one_shiftLeft, Nat.and_two_pow]
  rcases h : m.testBit k <;> simp

lemma and_two_pow_ne (m k : Nat) : (m &&& 2 ^ k != 0) = m.testBit k := by
  rw [Nat.and_two_pow]
  rcases h : m.testBit k <;> simp

lemma testBit_eq_false_of_mod (m t k : Nat) (hk : k < t) (h : m % 2 ^ t = 0) :
    m.testBit k = false := by
  obtain ⟨c, hc⟩ := Nat.dvd_of_mod_eq_zero h
  subst hc
  rw [Nat.testBit_to_div_mod]
  have hsplit : 2 ^ t = 2 ^ k * 2 ^ (t - k) := by
    rw [← pow_add]
    congr 1
    omega
  have hdiv : 2 ^ t * c / 2 ^ k = 2 ^ (t - k) * c := by
    rw [hsplit, mul_assoc, Nat.mul_div_cancel_left _ (Nat.pos_pow_of_pos _ (by norm_num))]
  rw [hdiv]
  have h2 : 2 ^ (t - k) = 2 * 2 ^ (t - k - 1) := by
    rw [← pow_succ']
    congr 1
    omega
  rw [h2, mul_assoc, Nat.mul_mod_right]
  simp

lemma round_pass (b : FPBits fmt)
    (h : b.is_inf_or_nan = true ∨ b.is_zero = true) : round b = b := by
  unfold round
  rw [if_pos]
  rcases h with h | h <;> simp [h]

lemma round_top (b : FPBits fmt) (hG : fmt.Good)
    (h : fmt.fraction_len + fmt.EXP_BIAS ≤ b.biased_exp) : round b = b := by
  unfold round
  by_cases hc : (b.is_inf_or_nan || b.is_zero) = true
  · rw [if_pos hc]
  · rw [if_neg hc, if_pos]
    unfold FPBits.get_exponent
    omega

lemma round_neg1 (b : FPBits fmt) (hG : fmt.Good) (hnz : b.is_zero = false)
    (h : b.get_exponent = -1) : round b = FPBits.one fmt b.sign := by
  obtain ⟨hG1, hG2, hG3⟩ := hG
  have hbias := EXP_BIAS_pos ⟨hG1, hG2, hG3⟩
  have hbe : b.biased_exp + 1 = fmt.EXP_BIAS := by
    unfold FPBits.get_exponent at h
    omega
  unfold round
  rw [if_neg (by simp [not_inf_or_nan b ⟨hG1, hG2, hG3⟩ (by omega), hnz]),
    if_neg (by unfold FPBits.get_exponent; omega), if_pos h]

lemma round_small2 (b : FPBits fmt) (hG : fmt.Good) (hnz : b.is_zero = false)
    (h : b.get_exponent ≤ -2) : round b = FPBits.zero fmt b.sign := by
  obtain ⟨hG1, hG2, hG3⟩ := hG
  have hbias := EXP_BIAS_pos ⟨hG1, hG2, hG3⟩
  have hbe : b.biased_exp + 2 ≤ fmt.EXP_BIAS := by
    unfold FPBits.get_exponent at h
    omega
  unfold round
  rw [if_neg (by simp [not_inf_or_nan b ⟨hG1, hG2, hG3⟩ (by omega), hnz]),
    if_neg (by unfold FPBits.get_exponent; omega),
    if_neg (by unfold FPBits.get_exponent; omega),
    if_pos (by unfold FPBits.get_exponent; omega)]

lemma round_mid_integral (b : FPBits fmt) (hG : fmt.Good) (hV : b.Valid)
    (h1 : fmt.EXP_BIAS ≤ b.biased_exp)
    (h2 : b.biased_exp < fmt.fraction_len + fmt.EXP_BIAS)
    (hI : b.mantissa % 2 ^ (fmt.fraction_len + fmt.EXP_BIAS - b.biased_exp) = 0) :
    round b = b := by
  obtain ⟨hG1, hG2, hG3⟩ := hG
  have hbias := EXP_BIAS_pos ⟨hG1, hG2, hG3⟩
  unfold round
  rw [if_neg (by
      simp [not_inf_or_nan b ⟨hG1, hG2, hG3⟩ (by omega),
        is_zero_false b (Or.inl (by omega))]),
    if_neg (by unfold FPBits.get_exponent; omega),
    if_neg (by unfold FPBits.get_exponent; omega),
    if_neg (by unfold FPBits.get_exponent; omega)]
  simp only
  rw [get_exponent_toNat b h1]
  have ht : fmt.fraction_len - (b.biased_exp - fmt.EXP_BIAS) =
      fmt.fraction_len + fmt.EXP_BIAS - b.biased_exp := by omega
  rw [ht, if_pos (by rw [uintval_trim_eq_iff b _ (by omega)]; exact hI)]

lemma round_mid_frac (b : FPBits fmt) (hG : fmt.Good) (hV : b.Valid)
    (h1 : fmt.EXP_BIAS ≤ b.biased_exp)
    (h2 : b.biased_exp < fmt.fraction_len + fmt.EXP_BIAS)
    (hI : b.mantissa % 2 ^ (fmt.fraction_len + fmt.EXP_BIAS - b.biased_exp) ≠ 0) :
    round b =
      if b.mantissa.testBit (fmt.fraction_len + fmt.EXP_BIAS - b.biased_exp - 1)
      then awayOne (trunc b) else trunc b := by
  obtain ⟨hG1, hG2, hG3⟩ := hG
  have hbias := EXP_BIAS_pos ⟨hG1, hG2, hG3⟩
  unfold round
  rw [if_neg (by
      simp [not_inf_or_nan b ⟨hG1, hG2, hG3⟩ (by omega),
        is_zero_false b (Or.inl (by omega))]),
    if_neg (by unfold FPBits.get_exponent; omega),
    if_neg (by unfold FPBits.get_exponent; omega),
    if_neg (by unfold FPBits.get_exponent; omega)]
  simp only
  rw [get_exponent_toNat b h1]
  have ht : fmt.fraction_len - (b.biased_exp - fmt.EXP_BIAS) =
      fmt.fraction_len + fmt.EXP_BIAS - b.biased_exp := by omega
  rw [ht, if_neg (by rw [uintval_trim_eq_iff b _ (by omega)]; exact hI),
    ofUintval_trim_eq_trunc b ⟨hG1, hG2, hG3⟩ hV h1 h2]
  unfold FPBits.get_mantissa
  rw [and_one_shiftLeft_ne]
  rcases hbit : b.mantissa.testBit (fmt.fraction_len + fmt.EXP_BIAS - b.biased_exp - 1) <;>
    simp

/-- Claim C3: for every finite x (in a format with bias at least 2, as all
real formats have), round (half away from zero) returns ±1 when the unbiased
exponent is -1, a signed zero when it is at most -2, x itself when it is at
least FRACTION_LEN, and otherwise the truncation of x moved one scaled unit
away from zero exactly when the single half bit (mantissa bit trim_size - 1)
is set, regardless of the trailing bits below it. -/
theorem claim_C3 (hG : fmt.Good) (hbias2 : 2 ≤ fmt.EXP_BIAS) (x : FPBits fmt)
    (hV : x.Valid) (hFin : x.is_inf_or_nan = false) :
    (x.get_exponent = -1 → round x = FPBits.one fmt x.sign) ∧
    (x.get_exponent ≤ -2 → round x = FPBits.zero fmt x.sign) ∧
    ((fmt.fraction_len : Int) ≤ x.get_exponent → round x = x) ∧
    (0 ≤ x.get_exponent → x.get_exponent < (fmt.fraction_len : Int) →
      ((x.mantissa.testBit (fmt.fraction_len + fmt.EXP_BIAS - x.biased_exp - 1) = true →
          (round x).sign = x.sign ∧
          (round x).scaled = (trunc x).scaled + sgnInt x.sign * 2 ^ fmt.unitExp) ∧
       (x.mantissa.testBit (fmt.fraction_len + fmt.EXP_BIAS - x.biased_exp - 1) = false →
          round x = trunc x))) := by
  have hGc := hG
  obtain ⟨hG1, hG2, hG3⟩ := hGc
  refine ⟨?_, ?_, ?_, ?_⟩
  · intro h
    by_cases hz : x.is_zero = true
    · exfalso
      rw [is_zero_iff] at hz
      unfold FPBits.get_exponent at h
      omega
    · exact round_neg1 x hG (by simpa using hz) h
  · intro h
    by_cases hz : x.is_zero = true
    · rw [round_pass x (Or.inr hz)]
      rw [is_zero_iff] at hz
      unfold FPBits.zero
      rcases x with ⟨s, be, m⟩
      simp only at hz
      simp [hz.1, hz.2]
    · exact round_small2 x hG (by simpa using hz) h
  · intro h
    apply round_top x hG
    unfold FPBits.get_exponent at h
    omega
  · intro h0 hF
    have h1 : fmt.EXP_BIAS ≤ x.biased_exp := by
      unfold FPBits.get_exponent at h0
      omega
    have h2 : x.biased_exp < fmt.fraction_len + fmt.EXP_BIAS := by
      unfold FPBits.get_exponent at hF
      omega
    set t := fmt.fraction_len + fmt.EXP_BIAS - x.biased_exp with htdef
    have ht1 : 1 ≤ t := by omega
    have htF : t ≤ fmt.fraction_len := by omega
    by_cases hI : x.mantissa % 2 ^ t = 0
    · have hbit : x.mantissa.testBit (t - 1) = false :=
        testBit_eq_false_of_mod _ t _ (by omega) hI
      have hx : round x = x := round_mid_integral x hG hV h1 h2 hI
      have htr : trunc x = x := by
        rw [trunc_mid x hG h1 h2]
        have : 2 ^ t * (x.mantissa / 2 ^ t) = x.mantissa := by
          rw [← nat_trim, nat_trim_eq_sub_mod]
          omega
        rw [← htdef, this]
      constructor
      · intro hc
        rw [hbit] at hc
        exact absurd hc (by simp)
      · intro hc
        rw [hx, htr]
    · have hfrac := round_mid_frac x hG hV h1 h2 hI
      rw [← htdef] at hfrac
      have htrI : (trunc x).IsIntegral := trunc_isIntegral x hG
      have htrV : (trunc x).Valid := trunc_valid x hG hV
      have htrBe : (trunc x).biased_exp = x.biased_exp := by
        rw [trunc_mid x hG h1 h2]
      have htrS : (trunc x).sign = x.sign := trunc_sign x hG
      have hflt : (trunc x).floorMag + 1 < 2 ^ (fmt.fraction_len + 1) := by
        have := floorMag_lt (trunc x) hG htrV (by omega)
        have h2F : 2 ^ fmt.fraction_len < 2 ^ (fmt.fraction_len + 1) := by
          rw [pow_succ]
          have : (0:Nat) < 2 ^ fmt.fraction_len := Nat.pos_pow_of_pos _ (by norm_num)
          omega
        omega
      constructor
      · intro hbit
        rw [hfrac, if_pos hbit]
        refine ⟨by rw [awayOne_sign, htrS], ?_⟩
        rw [scaled_eq_sgn_mag, scaled_eq_sgn_mag, awayOne_sign, htrS,
          awayOne_magScaled hG _ hflt, magScaled_of_integral _ htrI]
        push_cast
        ring
      · intro hbit
        rw [hfrac, if_neg (by simp [hbit])]

/-- Witness for claim C3: round(2.5) = 3, round(-2.5) = -3, round(0.5) = 1 in
the 8-bit minifloat format, derived from the general theorem. -/
theorem claim_C3_witness :
    (round (FPBits.mk false 8 2 : FPBits mini8)).scaled =
        (trunc (FPBits.mk false 8 2 : FPBits mini8)).scaled + 2 ^ mini8.unitExp ∧
    (round (FPBits.mk true 8 2 : FPBits mini8)).scaled =
        (trunc (FPBits.mk true 8 2 : FPBits mini8)).scaled - 2 ^ mini8.unitExp ∧
    round (FPBits.mk false 6 0 : FPBits mini8) = FPBits.one mini8 false := by
  refine ⟨?_, ?_, ?_⟩
  · have h := ((claim_C3 (by decide) (by decide) (FPBits.mk false 8 2 : FPBits mini8)
      (by decide) (by decide)).2.2.2 (by decide) (by decide)).1 (by decide)
    rw [h.2]
    rfl
  · have h := ((claim_C3 (by decide) (by decide) (FPBits.mk true 8 2 : FPBits mini8)
      (by decide) (by decide)).2.2.2 (by decide) (by decide)).1 (by decide)
    rw [h.2]
    rfl
  · exact (claim_C3 (by decide) (by decide) (FPBits.mk false 6 0 : FPBits mini8)
      (by decide) (by decide)).1 (by decide)

lemma rusm_pass (b : FPBits fmt) (rnd : Int)
    (h : b.is_inf_or_nan = true ∨ b.is_zero = true) :
    round_using_specific_rounding_mode b rnd = b := by
  unfold round_using_specific_rounding_mode
  rw [if_pos]
  rcases h with h | h <;> simp [h]

lemma rusm_top (b : FPBits fmt) (rnd : Int)
    (h : fmt.fraction_len + fmt.EXP_BIAS ≤ b.biased_exp) :
    round_using_specific_rounding_mode b rnd = b := by
  unfold round_using_specific_rounding_mode
  by_cases hc : (b.is_inf_or_nan || b.is_zero) = true
  · rw [if_pos hc]
  · rw [if_neg hc, if_pos]
    unfold FPBits.get_exponent
    omega

/-- The small-magnitude branch of round_using_specific_rounding_mode
(exponent at most -1), written exactly as the source case table. -/
lemma rusm_small (b : FPBits fmt) (rnd : Int) (hG : fmt.Good)
    (hnz : b.is_zero = false) (h : b.biased_exp < fmt.EXP_BIAS) :
    round_using_specific_rounding_mode b rnd =
      (if rnd = FP_INT_DOWNWARD then
        (if b.sign then FPBits.one fmt true else FPBits.zero fmt false)
      else if rnd = FP_INT_UPWARD then
        (if b.sign then FPBits.zero fmt true else FPBits.one fmt false)
      else if rnd = FP_INT_TOWARDZERO then
        (if b.sign then FPBits.zero fmt true else FPBits.zero fmt false)
      else if rnd = FP_INT_TONEARESTFROMZERO then
        (if b.get_exponent < -1
         then (if b.sign then FPBits.zero fmt true else FPBits.zero fmt false)
         else (if b.sign then FPBits.one fmt true else FPBits.one fmt false))
      else
        (if b.get_exponent ≤ -2 ∨ b.get_mantissa = 0
         then (if b.sign then FPBits.zero fmt true else FPBits.zero fmt false)
         else (if b.sign then FPBits.one fmt true else FPBits.one fmt false))) := by
  obtain ⟨hG1, hG2, hG3⟩ := hG
  have hbias := EXP_BIAS_pos ⟨hG1, hG2, hG3⟩
  unfold round_using_specific_rounding_mode
  rw [if_neg (by simp [not_inf_or_nan b ⟨hG1, hG2, hG3⟩ (by omega), hnz]),
    if_neg (by unfold FPBits.get_exponent; omega),
    if_pos (by unfold FPBits.get_exponent; omega)]
  unfold FPBits.is_neg
  rfl

/-- The middle branch (0 ≤ exponent < FRACTION_LEN) of
round_using_specific_rounding_mode on a non-integral value, with the storage
manipulations replaced by their arithmetic meaning: trunc_value is trunc b,
trim_value is mantissa mod 2 ^ trim_size, half_value is 2 ^ (trim_size - 1),
and trunc_is_odd is bit trim_size of the truncated mantissa. -/
lemma rusm_mid_frac (b : FPBits fmt) (rnd : Int) (hG : fmt.Good) (hV : b.Valid)
    (h1 : fmt.EXP_BIAS ≤ b.biased_exp)
    (h2 : b.biased_exp < fmt.fraction_len + fmt.EXP_BIAS)
    (hI : b.mantissa % 2 ^ (fmt.fraction_len + fmt.EXP_BIAS - b.biased_exp) ≠ 0) :
    round_using_specific_rounding_mode b rnd =
      (if rnd = FP_INT_DOWNWARD then
        (if b.sign then awayOne (trunc b) else trunc b)
      else if rnd = FP_INT_UPWARD then
        (if b.sign then trunc b else awayOne (trunc b))
      else if rnd = FP_INT_TOWARDZERO then trunc b
      else if rnd = FP_INT_TONEARESTFROMZERO then
        (if 2 ^ (fmt.fraction_len + fmt.EXP_BIAS - b.biased_exp - 1) ≤
            b.mantissa % 2 ^ (fmt.fraction_len + fmt.EXP_BIAS - b.biased_exp)
         then awayOne (trunc b) else trunc b)
      else
        (if 2 ^ (fmt.fraction_len + fmt.EXP_BIAS - b.biased_exp - 1) <
            b.mantissa % 2 ^ (fmt.fraction_len + fmt.EXP_BIAS - b.biased_exp)
         then awayOne (trunc b)
         else if b.mantissa % 2 ^ (fmt.fraction_len + fmt.EXP_BIAS - b.biased_exp) =
            2 ^ (fmt.fraction_len + fmt.EXP_BIAS - b.biased_exp - 1) then
           (if b.get_exponent = 0 then
             (if b.sign then FPBits.two fmt true else FPBits.two fmt false)
            else if (trunc b).mantissa.testBit
                (fmt.fraction_len + fmt.EXP_BIAS - b.biased_exp)
            then awayOne (trunc b)
            else trunc b)
         else trunc b)) := by
  obtain ⟨hG1, hG2, hG3⟩ := hG
  have hbias := EXP_BIAS_pos ⟨hG1, hG2, hG3⟩
  unfold round_using_specific_rounding_mode
  rw [if_neg (by
      simp [not_inf_or_nan b ⟨hG1, hG2, hG3⟩ (by omega),
        is_zero_false b (Or.inl (by omega))]),
    if_neg (by unfold FPBits.get_exponent; omega),
    if_neg (by unfold FPBits.get_exponent; omega)]
  simp only
  rw [get_exponent_toNat b h1]
  have ht : fmt.fraction_len - (b.biased_exp - fmt.EXP_BIAS) =
      fmt.fraction_len + fmt.EXP_BIAS - b.biased_exp := by omega
  rw [ht, if_neg (by rw [uintval_trim_eq_iff b _ (by omega)]; exact hI),
    ofUintval_trim_eq_trunc b ⟨hG1, hG2, hG3⟩ hV h1 h2]
  unfold FPBits.is_neg FPBits.get_mantissa
  simp only [Nat.one_shiftLeft, Nat.and_pow_two_sub_one_eq_mod, and_two_pow_ne]

lemma rusm_mid_integral (b : FPBits fmt) (rnd : Int) (hG : fmt.Good)
    (h1 : fmt.EXP_BIAS ≤ b.biased_exp)
    (h2 : b.biased_exp < fmt.fraction_len + fmt.EXP_BIAS)
    (hI : b.mantissa % 2 ^ (fmt.fraction_len + fmt.EXP_BIAS - b.biased_exp) = 0) :
    round_using_specific_rounding_mode b rnd = b := by
  obtain ⟨hG1, hG2, hG3⟩ := hG
  have hbias := EXP_BIAS_pos ⟨hG1, hG2, hG3⟩
  unfold round_using_specific_rounding_mode
  rw [if_neg (by
      simp [not_inf_or_nan b ⟨hG1, hG2, hG3⟩ (by omega),
        is_zero_false b (Or.inl (by omega))]),
    if_neg (by unfold FPBits.get_exponent; omega),
    if_neg (by unfold FPBits.get_exponent; omega)]
  simp only
  rw [get_exponent_toNat b h1]
  have ht : fmt.fraction_len - (b.biased_exp - fmt.EXP_BIAS) =
      fmt.fraction_len + fmt.EXP_BIAS - b.biased_exp := by omega
  rw [ht, if_pos (by rw [uintval_trim_eq_iff b _ (by omega)]; exact hI)]

/-- Parity of the truncated integer value equals its lowest kept mantissa bit
(bit trim_size), for exponents 1 ≤ e < FRACTION_LEN. -/
lemma trunc_floorMag_parity (b : FPBits fmt) (hG : fmt.Good) (hV : b.Valid)
    (h1 : fmt.EXP_BIAS < b.biased_exp)
    (h2 : b.biased_exp < fmt.fraction_len + fmt.EXP_BIAS) :
    ((trunc b).floorMag % 2 = 1) ↔
      (trunc b).mantissa.testBit
        (fmt.fraction_len + fmt.EXP_BIAS - b.biased_exp) = true := by
  have hbias := EXP_BIAS_pos hG
  have htr := trunc_mid b hG (by omega) h2
  set t := fmt.fraction_len + fmt.EXP_BIAS - b.biased_exp with htdef
  have htF : t + 1 ≤ fmt.fraction_len := by omega
  have hm : (trunc b).mantissa = 2 ^ t * (b.mantissa / 2 ^ t) := by
    rw [htr]
  have hbe : (trunc b).biased_exp = b.biased_exp := by rw [htr]
  have hmag : (trunc b).magScaled =
      (2 ^ fmt.fraction_len + 2 ^ t * (b.mantissa / 2 ^ t)) *
        2 ^ (b.biased_exp - 1) := by
    rw [magScaled_pos_exp _ (by rw [hbe]; omega), hm, hbe]
  have hu : (2:Nat) ^ fmt.unitExp = 2 ^ t * 2 ^ (b.biased_exp - 1) := by
    rw [← pow_add]
    congr 1
    unfold FPFormat.unitExp
    omega
  have hfm : (trunc b).floorMag =
      (2 ^ fmt.fraction_len + 2 ^ t * (b.mantissa / 2 ^ t)) / 2 ^ t := by
    rw [floorMag_eq, hmag, hu]
    rw [Nat.mul_div_mul_right _ _ (Nat.pos_pow_of_pos _ (by norm_num))]
  have hsplit : 2 ^ fmt.fraction_len = 2 ^ t * 2 ^ (fmt.fraction_len - t) := by
    rw [← pow_add]
    congr 1
    omega
  have hdiv : (2 ^ fmt.fraction_len + 2 ^ t * (b.mantissa / 2 ^ t)) / 2 ^ t =
      2 ^ (fmt.fraction_len - t) + b.mantissa / 2 ^ t := by
    rw [hsplit, ← Nat.mul_add,
      Nat.mul_div_cancel_left _ (Nat.pos_pow_of_pos _ (by norm_num))]
  have heven : 2 ^ (fmt.fraction_len - t) = 2 * 2 ^ (fmt.fraction_len - t - 1) := by
    rw [← pow_succ']
    congr 1
    omega
  have hparity : (trunc b).floorMag % 2 = b.mantissa / 2 ^ t % 2 := by
    rw [hfm, hdiv, heven, Nat.add_comm, Nat.add_mul_mod_self_left]
  have hbit : (trunc b).mantissa.testBit t = decide (b.mantissa / 2 ^ t % 2 = 1) := by
    rw [Nat.testBit_to_div_mod, hm,
      Nat.mul_div_cancel_left _ (Nat.pos_pow_of_pos _ (by norm_num))]
  rw [hparity, hbit]
  rcases h : decide (b.mantissa / 2 ^ t % 2 = 1) <;> simp_all

/-- Claim C2: non-integral x with 0 ≤ e < FRACTION_LEN under ToNearestEven:
below-half trimmed fraction truncates, above-half moves one unit away from
zero, and an exact tie moves away iff the truncated value is odd, except that
an exact tie at e = 0 returns ±2. -/
theorem claim_C2 (hG : fmt.Good) (x : FPBits fmt) (hV : x.Valid)
    (h0 : 0 ≤ x.get_exponent) (hF : x.get_exponent < (fmt.fraction_len : Int))
    (hnI : ¬ x.IsIntegral) :
    (x.mantissa % 2 ^ (fmt.fraction_len + fmt.EXP_BIAS - x.biased_exp) <
        2 ^ (fmt.fraction_len + fmt.EXP_BIAS - x.biased_exp - 1) →
      round_using_specific_rounding_mode x FP_INT_TONEAREST = trunc x) ∧
    (2 ^ (fmt.fraction_len + fmt.EXP_BIAS - x.biased_exp - 1) <
        x.mantissa % 2 ^ (fmt.fraction_len + fmt.EXP_BIAS - x.biased_exp) →
      (round_using_specific_rounding_mode x FP_INT_TONEAREST).sign = x.sign ∧
      (round_using_specific_rounding_mode x FP_INT_TONEAREST).scaled =
        (trunc x).scaled + sgnInt x.sign * 2 ^ fmt.unitExp) ∧
    (x.mantissa % 2 ^ (fmt.fraction_len + fmt.EXP_BIAS - x.biased_exp) =
        2 ^ (fmt.fraction_len + fmt.EXP_BIAS - x.biased_exp - 1) →
      (x.get_exponent = 0 →
        round_using_specific_rounding_mode x FP_INT_TONEAREST = FPBits.two fmt x.sign ∧
        (round_using_specific_rounding_mode x FP_INT_TONEAREST).scaled =
          sgnInt x.sign * 2 ^ (fmt.unitExp + 1)) ∧
      (x.get_exponent ≠ 0 →
        ((trunc x).floorMag % 2 = 1 →
          (round_using_specific_rounding_mode x FP_INT_TONEAREST).sign = x.sign ∧
          (round_using_specific_rounding_mode x FP_INT_TONEAREST).scaled =
            (trunc x).scaled + sgnInt x.sign * 2 ^ fmt.unitExp) ∧
        ((trunc x).floorMag % 2 = 0 →
          round_using_specific_rounding_mode x FP_INT_TONEAREST = trunc x))) := by
  have hGc := hG
  obtain ⟨hG1, hG2, hG3⟩ := hGc
  have hbias := EXP_BIAS_pos hG
  have h1 : fmt.EXP_BIAS ≤ x.biased_exp := by
    unfold FPBits.get_exponent at h0
    omega
  have h2 : x.biased_exp < fmt.fraction_len + fmt.EXP_BIAS := by
    unfold FPBits.get_exponent at hF
    omega
  rw [isIntegral_iff_mod x hG h1 h2] at hnI
  have hmain := rusm_mid_frac x FP_INT_TONEAREST hG hV h1 h2 hnI
  have hne1 : FP_INT_TONEAREST ≠ FP_INT_DOWNWARD := by decide
  have hne2 : FP_INT_TONEAREST ≠ FP_INT_UPWARD := by decide
  have hne3 : FP_INT_TONEAREST ≠ FP_INT_TOWARDZERO := by decide
  have hne4 : FP_INT_TONEAREST ≠ FP_INT_TONEARESTFROMZERO := by decide
  rw [if_neg hne1, if_neg hne2, if_neg hne3, if_neg hne4] at hmain
  have htrI : (trunc x).IsIntegral := trunc_isIntegral x hG
  have htrV : (trunc x).Valid := trunc_valid x hG hV
  have htrS : (trunc x).sign = x.sign := trunc_sign x hG
  have htrBe : (trunc x).biased_exp = x.biased_exp := by
    rw [trunc_mid x hG h1 h2]
  have hflt : (trunc x).floorMag + 1 < 2 ^ (fmt.fraction_len + 1) := by
    have := floorMag_lt (trunc x) hG htrV (by omega)
    have h2F : 2 ^ fmt.fraction_len < 2 ^ (fmt.fraction_len + 1) := by
      rw [pow_succ]
      have : (0:Nat) < 2 ^ fmt.fraction_len := Nat.pos_pow_of_pos _ (by norm_num)
      omega
    omega
  have haway_scaled : (awayOne (trunc x)).scaled =
      (trunc x).scaled + sgnInt x.sign * 2 ^ fmt.unitExp := by
    rw [scaled_eq_sgn_mag, scaled_eq_sgn_mag, awayOne_sign, htrS,
      awayOne_magScaled hG _ hflt, magScaled_of_integral _ htrI]
    push_cast
    ring
  have haway_sign : (awayOne (trunc x)).sign = x.sign := by
    rw [awayOne_sign, htrS]
  refine ⟨?_, ?_, ?_⟩
  · intro hlt
    rw [hmain, if_neg (by omega), if_neg (by omega)]
  · intro hgt
    rw [hmain, if_pos hgt]
    exact ⟨haway_sign, haway_scaled⟩
  · intro htie
    constructor
    · intro he0
      rw [hmain, if_neg (by omega), if_pos htie, if_pos he0]
      constructor
      · rcases hs : x.sign <;> simp [hs]
      · rcases hs : x.sign <;>
          simp [hs, scaled_two hG, sgnInt]
    · intro hne0
      have h1s : fmt.EXP_BIAS < x.biased_exp := by
        unfold FPBits.get_exponent at hne0 h0
        omega
      have hpar := trunc_floorMag_parity x hG hV h1s h2
      constructor
      · intro hodd
        rw [hmain, if_neg (by omega), if_pos htie, if_neg hne0,
          if_pos (hpar.mp hodd)]
        exact ⟨haway_sign, haway_scaled⟩
      · intro heven
        have hbitf : (trunc x).mantissa.testBit
            (fmt.fraction_len + fmt.EXP_BIAS - x.biased_exp) = false := by
          rcases hb : (trunc x).mantissa.testBit
              (fmt.fraction_len + fmt.EXP_BIAS - x.biased_exp)
          · rfl
          · exfalso
            have := hpar.mpr hb
            omega
        rw [hmain, if_neg (by omega), if_pos htie, if_neg hne0, if_neg (by simp [hbitf])]

/-- Witness for claim C2: in the 8-bit minifloat,
round_with_mode(2.5, ToNearestEven) = 2, round_with_mode(3.5, ToNearestEven)
has the value of 4, and round_with_mode(-2.5, ToNearestEven) = -2. -/
theorem claim_C2_witness :
    round_using_specific_rounding_mode (FPBits.mk false 8 2 : FPBits mini8)
        FP_INT_TONEAREST = FPBits.mk false 8 0 ∧
    (round_using_specific_rounding_mode (FPBits.mk false 8 6 : FPBits mini8)
        FP_INT_TONEAREST).scaled = (FPBits.mk false 9 0 : FPBits mini8).scaled ∧
    round_using_specific_rounding_mode (FPBits.mk true 8 2 : FPBits mini8)
        FP_INT_TONEAREST = FPBits.mk true 8 0 := by
  refine ⟨?_, ?_, ?_⟩
  · have h := (((claim_C2 (by decide) (FPBits.mk false 8 2 : FPBits mini8)
      (by decide) (by decide) (by decide) (by decide)).2.2 (by decide)).2
        (by decide)).2 (by decide)
    rw [h]
    decide
  · have h := (((claim_C2 (by decide) (FPBits.mk false 8 6 : FPBits mini8)
      (by decide) (by decide) (by decide) (by decide)).2.2 (by decide)).2
        (by decide)).1 (by decide)
    rw [h.2]
    decide
  · have h := (((claim_C2 (by decide) (FPBits.mk true 8 2 : FPBits mini8)
      (by decide) (by decide) (by decide) (by decide)).2.2 (by decide)).2
        (by decide)).2 (by decide)
    rw [h]
    decide

/-- Claim C10: a mode value that is none of the five named FP_INT constants
behaves exactly like FP_INT_TONEAREST (the default switch branches). -/
theorem claim_C10 (x : FPBits fmt) (rnd : Int)
    (h0 : rnd ≠ FP_INT_UPWARD) (h1 : rnd ≠ FP_INT_DOWNWARD)
    (h2 : rnd ≠ FP_INT_TOWARDZERO) (h3 : rnd ≠ FP_INT_TONEARESTFROMZERO)
    (h4 : rnd ≠ FP_INT_TONEAREST) :
    round_using_specific_rounding_mode x rnd =
      round_using_specific_rounding_mode x FP_INT_TONEAREST := by
  have e1 : FP_INT_TONEAREST ≠ FP_INT_DOWNWARD := by decide
  have e2 : FP_INT_TONEAREST ≠ FP_INT_UPWARD := by decide
  have e3 : FP_INT_TONEAREST ≠ FP_INT_TOWARDZERO := by decide
  have e4 : FP_INT_TONEAREST ≠ FP_INT_TONEARESTFROMZERO := by decide
  unfold round_using_specific_rounding_mode
  simp only [if_neg h0, if_neg h1, if_neg h2, if_neg h3,
    if_neg e1, if_neg e2, if_neg e3, if_neg e4]

/-- Witness for claim C10 at the unrecognized mode value 99. -/
theorem claim_C10_witness :
    round_using_specific_rounding_mode (FPBits.mk false 8 2 : FPBits mini8) 99 =
      round_using_specific_rounding_mode (FPBits.mk false 8 2 : FPBits mini8)
        FP_INT_TONEAREST :=
  claim_C10 (FPBits.mk false 8 2 : FPBits mini8) 99 (by decide) (by decide) (by decide)
    (by decide) (by decide)

lemma isIntegral_zero (s : Bool) : (FPBits.zero fmt s).IsIntegral := by
  unfold FPBits.IsIntegral
  rw [magScaled_zero_exp _ rfl]
  simp [FPBits.zero]

lemma isIntegral_one (hG : fmt.Good) (s : Bool) : (FPBits.one fmt s).IsIntegral := by
  unfold FPBits.IsIntegral
  rw [magScaled_one hG]

lemma isIntegral_two (hG : fmt.Good) (s : Bool) : (FPBits.two fmt s).IsIntegral := by
  unfold FPBits.IsIntegral
  rw [magScaled_two hG]
  exact ⟨2, by ring⟩

lemma zero_valid (s : Bool) : (FPBits.zero fmt s).Valid :=
  ⟨Nat.pos_pow_of_pos _ (by norm_num), Nat.pos_pow_of_pos _ (by norm_num)⟩

lemma one_valid (hG : fmt.Good) (s : Bool) : (FPBits.one fmt s).Valid := by
  have := EXP_BIAS_pos hG
  have hall := exp_all_ones hG
  refine ⟨?_, Nat.pos_pow_of_pos _ (by norm_num)⟩
  unfold FPBits.one
  simp only [mk_biased_exp]
  omega

lemma two_valid (hG : fmt.Good) (s : Bool) : (FPBits.two fmt s).Valid := by
  have := EXP_BIAS_pos hG
  have hall := exp_all_ones hG
  refine ⟨?_, Nat.pos_pow_of_pos _ (by norm_num)⟩
  unfold FPBits.two
  simp only [mk_biased_exp]
  omega

/-- The floorMag + 1 bound needed for awayOne at a truncation in the middle
region. -/
lemma trunc_away_bound (b : FPBits fmt) (hG : fmt.Good) (hV : b.Valid)
    (h2 : b.biased_exp < fmt.fraction_len + fmt.EXP_BIAS) :
    (trunc b).floorMag + 1 < 2 ^ (fmt.fraction_len + 1) := by
  have htrV := trunc_valid b hG hV
  have htrBe : (trunc b).biased_exp ≤ b.biased_exp := by
    by_cases h1 : fmt.fraction_len + fmt.EXP_BIAS ≤ b.biased_exp
    · rw [trunc_top b h1]
    · by_cases hs : b.biased_exp < fmt.EXP_BIAS
      · rw [trunc_small b hG hs]
        simp [FPBits.zero]
      · rw [trunc_mid b hG (by omega) (by omega)]
  have := floorMag_lt (trunc b) hG htrV (by omega)
  have h2F : 2 ^ fmt.fraction_len < 2 ^ (fmt.fraction_len + 1) := by
    rw [pow_succ]
    have : (0:Nat) < 2 ^ fmt.fraction_len := Nat.pos_pow_of_pos _ (by norm_num)
    omega
  omega

lemma trunc_eq_self (b : FPBits fmt) (hG : fmt.Good) (hV : b.Valid)
    (hI : b.IsIntegral) : trunc b = b := by
  by_cases htop : fmt.fraction_len + fmt.EXP_BIAS ≤ b.biased_exp
  · exact trunc_top b htop
  · by_cases hsmall : b.biased_exp < fmt.EXP_BIAS
    · obtain ⟨he, hm⟩ := isIntegral_small b hG hV hsmall hI
      rw [trunc_small b hG hsmall]
      rcases b with ⟨s, be, m⟩
      simp only at he hm
      unfold FPBits.zero
      rw [he, hm]
    · rw [isIntegral_iff_mod b hG (by omega) (by omega)] at hI
      rw [trunc_mid b hG (by omega) (by omega)]
      have : 2 ^ (fmt.fraction_len + fmt.EXP_BIAS - b.biased_exp) *
          (b.mantissa / 2 ^ (fmt.fraction_len + fmt.EXP_BIAS - b.biased_exp)) =
          b.mantissa := by
        rw [← nat_trim, nat_trim_eq_sub_mod]
        omega
      rw [this]

lemma ceil_eq_self (b : FPBits fmt) (hG : fmt.Good) (hV : b.Valid)
    (hI : b.IsIntegral) : ceil b = b := by
  by_cases htop : fmt.fraction_len + fmt.EXP_BIAS ≤ b.biased_exp
  · exact ceil_top b hG htop
  · by_cases hsmall : b.biased_exp < fmt.EXP_BIAS
    · obtain ⟨he, hm⟩ := isIntegral_small b hG hV hsmall hI
      apply ceil_pass
      right
      rw [is_zero_iff]
      exact ⟨he, hm⟩
    · rw [isIntegral_iff_mod b hG (by omega) (by omega)] at hI
      exact ceil_mid_integral b hG hV (by omega) (by omega) hI

lemma round_eq_self (b : FPBits fmt) (hG : fmt.Good) (hV : b.Valid)
    (hI : b.IsIntegral) : round b = b := by
  by_cases htop : fmt.fraction_len + fmt.EXP_BIAS ≤ b.biased_exp
  · exact round_top b hG htop
  · by_cases hsmall : b.biased_exp < fmt.EXP_BIAS
    · obtain ⟨he, hm⟩ := isIntegral_small b hG hV hsmall hI
      apply round_pass
      right
      rw [is_zero_iff]
      exact ⟨he, hm⟩
    · rw [isIntegral_iff_mod b hG (by omega) (by omega)] at hI
      exact round_mid_integral b hG hV (by omega) (by omega) hI

lemma rusm_eq_self (b : FPBits fmt) (rnd : Int) (hG : fmt.Good) (hV : b.Valid)
    (hI : b.IsIntegral) : round_using_specific_rounding_mode b rnd = b := by
  by_cases htop : fmt.fraction_len + fmt.EXP_BIAS ≤ b.biased_exp
  · exact rusm_top b rnd htop
  · by_cases hsmall : b.biased_exp < fmt.EXP_BIAS
    · obtain ⟨he, hm⟩ := isIntegral_small b hG hV hsmall hI
      apply rusm_pass
      right
      rw [is_zero_iff]
      exact ⟨he, hm⟩
    · rw [isIntegral_iff_mod b hG (by omega) (by omega)] at hI
      exact rusm_mid_integral b rnd hG (by omega) (by omega) hI

lemma neg_neg (b : FPBits fmt) : b.neg.neg = b := by
  rcases b with ⟨s, be, m⟩
  unfold FPBits.neg
  simp

lemma neg_valid (b : FPBits fmt) (hV : b.Valid) : b.neg.Valid := hV

lemma neg_magScaled (b : FPBits fmt) : b.neg.magScaled = b.magScaled := rfl

lemma neg_isIntegral (b : FPBits fmt) (hI : b.IsIntegral) : b.neg.IsIntegral := hI

lemma floor_eq_self (b : FPBits fmt) (hG : fmt.Good) (hV : b.Valid)
    (hI : b.IsIntegral) : floor b = b := by
  unfold floor
  by_cases hs : b.is_neg = true
  · rw [if_pos hs, ceil_eq_self b.neg hG (neg_valid b hV) (neg_isIntegral b hI),
      neg_neg]
  · rw [if_neg hs, trunc_eq_self b hG hV hI]

lemma ceil_isIntegral (b : FPBits fmt) (hG : fmt.Good) (hV : b.Valid) :
    (ceil b).IsIntegral := by
  by_cases hc : (b.is_inf_or_nan || b.is_zero) = true
  · rw [ceil_pass b (by simpa using hc)]
    rcases (by simpa using hc : b.is_inf_or_nan = true ∨ b.is_zero = true) with h | h
    · apply isIntegral_top b hG
      rw [is_inf_or_nan_iff] at h
      rw [exp_all_ones hG] at h
      have hG3 := hG.2.2
      have := EXP_BIAS_pos hG
      omega
    · rw [is_zero_iff] at h
      unfold FPBits.IsIntegral
      rw [magScaled_zero_exp b h.1, h.2]
      simp
  · have hnio : b.is_inf_or_nan = false := by
      rcases hio : b.is_inf_or_nan
      · rfl
      · rw [hio] at hc
        simp at hc
    have hnz : b.is_zero = false := by
      rcases hz : b.is_zero
      · rfl
      · rw [hz] at hc
        simp at hc
    by_cases htop : fmt.fraction_len + fmt.EXP_BIAS ≤ b.biased_exp
    · rw [ceil_top b hG htop]
      exact isIntegral_top b hG htop
    · by_cases hsmall : b.biased_exp < fmt.EXP_BIAS
      · rw [ceil_small b hG hsmall hnz]
        rcases hs : b.sign
        · rw [if_neg (by simp)]
          exact isIntegral_one hG false
        · rw [if_pos rfl]
          exact isIntegral_zero true
      · by_cases hI : b.mantissa %
            2 ^ (fmt.fraction_len + fmt.EXP_BIAS - b.biased_exp) = 0
        · rw [ceil_mid_integral b hG hV (by omega) (by omega) hI]
          rw [isIntegral_iff_mod b hG (by omega) (by omega)]
          exact hI
        · rw [ceil_mid_frac b hG hV (by omega) (by omega) hI]
          rcases hs : b.sign
          · rw [if_neg (by simp)]
            exact awayOne_isIntegral hG _ (trunc_away_bound b hG hV (by omega))
          · rw [if_pos rfl]
            exact trunc_isIntegral b hG

lemma ceil_valid (b : FPBits fmt) (hG : fmt.Good) (hV : b.Valid) :
    (ceil b).Valid := by
  by_cases hc : (b.is_inf_or_nan || b.is_zero) = true
  · rw [ceil_pass b (by simpa using hc)]
    exact hV
  · have hnz : b.is_zero = false := by
      rcases hz : b.is_zero
      · rfl
      · rw [hz] at hc
        simp at hc
    by_cases htop : fmt.fraction_len + fmt.EXP_BIAS ≤ b.biased_exp
    · rw [ceil_top b hG htop]
      exact hV
    · by_cases hsmall : b.biased_exp < fmt.EXP_BIAS
      · rw [ceil_small b hG hsmall hnz]
        rcases hs : b.sign
        · rw [if_neg (by simp)]
          exact one_valid hG false
        · rw [if_pos rfl]
          exact zero_valid true
      · by_cases hI : b.mantissa %
            2 ^ (fmt.fraction_len + fmt.EXP_BIAS - b.biased_exp) = 0
        · rw [ceil_mid_integral b hG hV (by omega) (by omega) hI]
          exact hV
        · rw [ceil_mid_frac b hG hV (by omega) (by omega) hI]
          rcases hs : b.sign
          · rw [if_neg (by simp)]
            exact awayOne_valid hG _ (trunc_away_bound b hG hV (by omega))
          · rw [if_pos rfl]
            exact trunc_valid b hG hV

lemma round_isIntegral (b : FPBits fmt) (hG : fmt.Good) (hV : b.Valid) :
    (round b).IsIntegral := by
  by_cases hc : (b.is_inf_or_nan || b.is_zero) = true
  · rw [round_pass b (by simpa using hc)]
    rcases (by simpa using hc : b.is_inf_or_nan = true ∨ b.is_zero = true) with h | h
    · apply isIntegral_top b hG
      rw [is_inf_or_nan_iff] at h
      rw [exp_all_ones hG] at h
      have hG3 := hG.2.2
      have := EXP_BIAS_pos hG
      omega
    · rw [is_zero_iff] at h
      unfold FPBits.IsIntegral
      rw [magScaled_zero_exp b h.1, h.2]
      simp
  · have hnz : b.is_zero = false := by
      rcases hz : b.is_zero
      · rfl
      · rw [hz] at hc
        simp at hc
    by_cases htop : fmt.fraction_len + fmt.EXP_BIAS ≤ b.biased_exp
    · rw [round_top b hG htop]
      exact isIntegral_top b hG htop
    · by_cases hsmall : b.biased_exp < fmt.EXP_BIAS
      · by_cases hm1 : b.get_exponent = -1
        · rw [round_neg1 b hG hnz hm1]
          exact isIntegral_one hG _
        · rw [round_small2 b hG hnz (by unfold FPBits.get_exponent at hm1 ⊢; omega)]
          exact isIntegral_zero _
      · by_cases hI : b.mantissa %
            2 ^ (fmt.fraction_len + fmt.EXP_BIAS - b.biased_exp) = 0
        · rw [round_mid_integral b hG hV (by omega) (by omega) hI]
          rw [isIntegral_iff_mod b hG (by omega) (by omega)]
          exact hI
        · rw [round_mid_frac b hG hV (by omega) (by omega) hI]
          by_cases hbit : b.mantissa.testBit
              (fmt.fraction_len + fmt.EXP_BIAS - b.biased_exp - 1) = true
          · rw [if_pos hbit]
            exact awayOne_isIntegral hG _ (trunc_away_bound b hG hV (by omega))
          · rw [if_neg hbit]
            exact trunc_isIntegral b hG

lemma round_valid (b : FPBits fmt) (hG : fmt.Good) (hV : b.Valid) :
    (round b).Valid := by
  by_cases hc : (b.is_inf_or_nan || b.is_zero) = true
  · rw [round_pass b (by simpa using hc)]
    exact hV
  · have hnz : b.is_zero = false := by
      rcases hz : b.is_zero
      · rfl
      · rw [hz] at hc
        simp at hc
    by_cases htop : fmt.fraction_len + fmt.EXP_BIAS ≤ b.biased_exp
    · rw [round_top b hG htop]
      exact hV
    · by_cases hsmall : b.biased_exp < fmt.EXP_BIAS
      · by_cases hm1 : b.get_exponent = -1
        · rw [round_neg1 b hG hnz hm1]
          exact one_valid hG _
        · rw [round_small2 b hG hnz (by unfold FPBits.get_exponent at hm1 ⊢; omega)]
          exact zero_valid _
      · by_cases hI : b.mantissa %
            2 ^ (fmt.fraction_len + fmt.EXP_BIAS - b.biased_exp) = 0
        · rw [round_mid_integral b hG hV (by omega) (by omega) hI]
          exact hV
        · rw [round_mid_frac b hG hV (by omega) (by omega) hI]
          by_cases hbit : b.mantissa.testBit
              (fmt.fraction_len + fmt.EXP_BIAS - b.biased_exp - 1) = true
          · rw [if_pos hbit]
            exact awayOne_valid hG _ (trunc_away_bound b hG hV (by omega))
          · rw [if_neg hbit]
            exact trunc_valid b hG hV

lemma floor_isIntegral (b : FPBits fmt) (hG : fmt.Good) (hV : b.Valid) :
    (floor b).IsIntegral := by
  unfold floor
  by_cases hs : b.is_neg = true
  · rw [if_pos hs]
    exact neg_isIntegral _ (ceil_isIntegral b.neg hG (neg_valid b hV))
  · rw [if_neg hs]
    exact trunc_isIntegral b hG

lemma floor_valid (b : FPBits fmt) (hG : fmt.Good) (hV : b.Valid) :
    (floor b).Valid := by
  unfold floor
  by_cases hs : b.is_neg = true
  · rw [if_pos hs]
    exact neg_valid _ (ceil_valid b.neg hG (neg_valid b hV))
  · rw [if_neg hs]
    exact trunc_valid b hG hV

/-- Claim C8: each rounding primitive is idempotent, and
round_using_specific_rounding_mode returns every finite already-integral x
unchanged regardless of the mode. -/
theorem claim_C8 (hG : fmt.Good) (x : FPBits fmt) (hV : x.Valid) :
    trunc (trunc x) = trunc x ∧
    ceil (ceil x) = ceil x ∧
    floor (floor x) = floor x ∧
    round (round x) = round x ∧
    (∀ rnd : Int, x.is_inf_or_nan = false → x.IsIntegral →
      round_using_specific_rounding_mode x rnd = x) := by
  refine ⟨?_, ?_, ?_, ?_, ?_⟩
  · exact trunc_eq_self _ hG (trunc_valid x hG hV) (trunc_isIntegral x hG)
  · exact ceil_eq_self _ hG (ceil_valid x hG hV) (ceil_isIntegral x hG hV)
  · exact floor_eq_self _ hG (floor_valid x hG hV) (floor_isIntegral x hG hV)
  · exact round_eq_self _ hG (round_valid x hG hV) (round_isIntegral x hG hV)
  · intro rnd hFin hI
    exact rusm_eq_self x rnd hG hV hI

/-- Witness for claim C8 at x = 2.5 (and the integral x = 3 for the mode
clause) in the 8-bit minifloat. -/
theorem claim_C8_witness :
    (trunc (trunc (FPBits.mk false 8 2 : FPBits mini8)) =
      trunc (FPBits.mk false 8 2 : FPBits mini8)) ∧
    round_using_specific_rounding_mode (FPBits.mk false 8 4 : FPBits mini8)
      FP_INT_DOWNWARD = FPBits.mk false 8 4 :=
  ⟨(claim_C8 (by decide) (FPBits.mk false 8 2 : FPBits mini8) (by decide)).1,
   (claim_C8 (by decide) (FPBits.mk false 8 4 : FPBits mini8) (by decide)).2.2.2.2
     FP_INT_DOWNWARD (by decide) (by decide)⟩

/-- fromfp never raises the inexact exception (its only signal is
invalid-operation). -/
lemma fromfp_inexact_false (isSigned : Bool) (x : FPBits fmt) (rnd : Int)
    (width : Nat) : (fromfp isSigned x rnd width).2.inexact = false := by
  simp only [fromfp]
  split
  · rfl
  · split
    · rfl
    · split
      · split
        · rfl
        · split
          · rfl
          · split <;> rfl
      · split
        · rfl
        · split
          · rfl
          · split <;> rfl

/-- fromfp never touches the errno-style domain-error channel. -/
lemma fromfp_errno_false (isSigned : Bool) (x : FPBits fmt) (rnd : Int)
    (width : Nat) : (fromfp isSigned x rnd width).2.errno_edom = false := by
  simp only [fromfp]
  split
  · rfl
  · split
    · rfl
    · split
      · split
        · rfl
        · split
          · rfl
          · split <;> rfl
      · split
        · rfl
        · split
          · rfl
          · split <;> rfl

/-- Claim C5: fromfpx raises inexact exactly when the value it returns is not
a NaN and is (IEEE-)unequal to the input x, and plain fromfp never raises
inexact.  (The plain rounding primitives trunc, ceil, floor, round and
round_using_specific_rounding_mode perform no environment call at all: in
this embedding they are pure FPBits functions.) -/
theorem claim_C5 (isSigned : Bool) (x : FPBits fmt) (rnd : Int) (width : Nat) :
    ((fromfpx isSigned x rnd width).2.inexact = true ↔
      ((fromfpx isSigned x rnd width).1.is_nan = false ∧
        fpNe (fromfpx isSigned x rnd width).1 x = true)) ∧
    (fromfp isSigned x rnd width).2.inexact = false := by
  have hfalse := fromfp_inexact_false isSigned x rnd width
  refine ⟨?_, hfalse⟩
  unfold fromfpx
  simp only
  by_cases h : (!(fromfp isSigned x rnd width).1.is_nan &&
      fpNe (fromfp isSigned x rnd width).1 x) = true
  · rw [if_pos h]
    simp only [Bool.and_eq_true, Bool.not_eq_true'] at h
    simp [h.1, h.2]
  · rw [if_neg h]
    simp only [Bool.and_eq_true, Bool.not_eq_true'] at h
    rw [hfalse]
    simp only [Bool.false_eq_true, false_iff]
    exact h

/-- Witness for claim C5: converting 2.5 toward zero with width 8 raises
inexact (value changed), converting the integral 2 does not. -/
theorem claim_C5_witness :
    ((fromfpx true (FPBits.mk false 8 2 : FPBits mini8) FP_INT_TOWARDZERO 8).2.inexact =
        true ↔
      ((fromfpx true (FPBits.mk false 8 2 : FPBits mini8)
          FP_INT_TOWARDZERO 8).1.is_nan = false ∧
        fpNe (fromfpx true (FPBits.mk false 8 2 : FPBits mini8)
          FP_INT_TOWARDZERO 8).1 (FPBits.mk false 8 2 : FPBits mini8) = true)) ∧
    (fromfp true (FPBits.mk false 8 2 : FPBits mini8)
      FP_INT_TOWARDZERO 8).2.inexact = false :=
  claim_C5 true (FPBits.mk false 8 2 : FPBits mini8) FP_INT_TOWARDZERO 8

/-- Claim C9: the unsigned fromfp does not reject a rounded value of -0.0:
whenever rounding a finite x produces the negative zero, fromfp<unsigned>
returns that negative zero itself, raising no exception and producing no NaN,
because the rejection test is the strict IEEE comparison rounded < 0.0. -/
theorem claim_C9 (hG : fmt.Good) (x : FPBits fmt) (rnd : Int) (width : Nat)
    (hFin : x.is_inf_or_nan = false) (hw : 1 ≤ width)
    (hr : round_using_specific_rounding_mode x rnd = FPBits.zero fmt true) :
    fromfp false x rnd width = (FPBits.zero fmt true, noSignals) ∧
    (fromfp false x rnd width).1.is_nan = false ∧
    (fromfp false x rnd width).1.sign = true := by
  have hmain : fromfp false x rnd width = (FPBits.zero fmt true, noSignals) := by
    simp only [fromfp]
    rw [if_neg (by omega), if_neg (by simp [hFin]), hr,
      if_neg (by exact Bool.false_ne_true)]
    have hlt1 : fpLt (FPBits.zero fmt true) (FPBits.zero fmt false) = false := by
      unfold fpLt
      rw [scaled_zero, scaled_zero]
      simp
    rw [if_neg (by simp [hlt1])]
    by_cases hskip : fmt.EXP_BIAS < width
    · rw [if_pos hskip]
    · rw [if_neg hskip]
      have hsign : (fpSubOne (FPBits.create_value fmt false
          (width + fmt.EXP_BIAS) 0)).sign = false := by
        unfold fpSubOne
        rw [roundNatRNE_sign]
        rfl
      have h0 : ¬((fpSubOne (FPBits.create_value fmt false
          (width + fmt.EXP_BIAS) 0)).scaled < (FPBits.zero fmt true).scaled) := by
        rw [scaled_zero]
        exact not_lt.mpr (scaled_nonneg _ hsign)
      have hlt2 : fpLt (fpSubOne (FPBits.create_value fmt false
          (width + fmt.EXP_BIAS) 0)) (FPBits.zero fmt true) = false := by
        unfold fpLt
        simp [h0]
      rw [if_neg (by simp [hlt2])]
  refine ⟨hmain, ?_, ?_⟩
  · rw [hmain]
    simp [FPBits.is_nan, FPBits.zero]
  · rw [hmain]
    rfl

/-- Witness for claim C9: x = -0.5 rounded toward zero gives -0.0, and the
unsigned fromfp with width 3 returns -0.0 silently. -/
theorem claim_C9_witness :
    round_using_specific_rounding_mode (FPBits.mk true 6 0 : FPBits mini8)
        FP_INT_TOWARDZERO = FPBits.zero mini8 true ∧
    fromfp false (FPBits.mk true 6 0 : FPBits mini8) FP_INT_TOWARDZERO 3 =
      (FPBits.zero mini8 true, noSignals) :=
  ⟨by decide,
   (claim_C9 (by decide) (FPBits.mk true 6 0 : FPBits mini8) FP_INT_TOWARDZERO 3
     (by decide) (by decide) (by decide)).1⟩

/-- On an integral value, the static_cast model is exact: multiplying the
integer result back by the unit scale recovers the scaled value. -/
lemma intCast_mul_unit (b : FPBits fmt) (hI : b.IsIntegral) :
    b.intCast * 2 ^ fmt.unitExp = b.scaled := by
  unfold FPBits.intCast
  rw [scaled_eq_sgn_mag, magScaled_of_integral _ hI]
  rcases hs : b.sign <;> simp [sgnInt] <;> push_cast <;> ring

/-- Claim C6: round_to_signed_integer to a W-bit signed type signals domain
error + invalid and saturates to the type minimum (negative rounded sign) or
maximum exactly when the rounded value is infinite/NaN, its exponent exceeds
W-1, or its exponent equals W-1 without being the unique negative boundary
-2^(W-1); otherwise it signals nothing and narrows the rounded value exactly. -/
theorem claim_C6 (hG : fmt.Good) (x : FPBits fmt) (hV : x.Valid) (W : Nat)
    (hW : 1 ≤ W) :
    ((round_to_signed_integer W x).2 = ⟨true, false, true⟩ ↔
      ((round x).is_inf_or_nan = true ∨
        ((W : Int) - 1 < (round x).get_exponent) ∨
        ((round x).get_exponent = (W : Int) - 1 ∧
          ¬((round x).sign = true ∧ (round x).mantissa = 0)))) ∧
    (((round x).is_inf_or_nan = true ∨
        ((W : Int) - 1 < (round x).get_exponent) ∨
        ((round x).get_exponent = (W : Int) - 1 ∧
          ¬((round x).sign = true ∧ (round x).mantissa = 0))) →
      (round_to_signed_integer W x).1 =
        (if (round x).sign then -(2 ^ (W - 1) : Int) else 2 ^ (W - 1) - 1)) ∧
    (¬((round x).is_inf_or_nan = true ∨
        ((W : Int) - 1 < (round x).get_exponent) ∨
        ((round x).get_exponent = (W : Int) - 1 ∧
          ¬((round x).sign = true ∧ (round x).mantissa = 0))) →
      (round_to_signed_integer W x).2 = noSignals ∧
      (round_to_signed_integer W x).1 * 2 ^ fmt.unitExp = (round x).scaled) := by
  have hI : (round x).IsIntegral := round_isIntegral x hG hV
  have hmin : (-(2 ^ (W - 1) : Int)) = -(2 ^ (W - 1)) := rfl
  have hmax : (-(-(2 ^ (W - 1) : Int) + 1)) = 2 ^ (W - 1) - 1 := by ring
  unfold round_to_signed_integer
  simp only [rounded_float_to_signed_integer]
  by_cases hinf : (round x).is_inf_or_nan = true
  · rw [if_pos hinf]
    refine ⟨by simp [hinf], ?_, ?_⟩
    · intro _
      rcases hs : (round x).sign
      · simp [FPBits.is_neg, hs]
        try ring
      · simp [FPBits.is_neg, hs]
        try ring
    · intro hc
      exact absurd (Or.inl hinf) hc
  · rw [if_neg hinf]
    by_cases hgt : ((W : Int) - 1) < (round x).get_exponent
    · rw [if_pos hgt]
      refine ⟨by simp [hgt], ?_, ?_⟩
      · intro _
        rcases hs : (round x).sign
        · simp [FPBits.is_neg, hs]
          try ring
        · simp [FPBits.is_neg, hs]
          try ring
      · intro hc
        exact absurd (Or.inr (Or.inl hgt)) hc
    · rw [if_neg hgt]
      by_cases heq : (round x).get_exponent = ((W : Int) - 1)
      · rw [if_pos heq]
        by_cases hb : ((round x).is_pos || (round x).get_mantissa != 0) = true
        · rw [if_pos hb]
          have hbp : ¬((round x).sign = true ∧ (round x).mantissa = 0) := by
            unfold FPBits.is_pos FPBits.get_mantissa at hb
            simp only [Bool.or_eq_true, Bool.not_eq_true', bne_iff_ne] at hb
            rcases hb with hb | hb
            · intro hcon
              rw [hcon.1] at hb
              exact absurd hb (by simp)
            · intro hcon
              exact hb hcon.2
          refine ⟨by simp [heq, hbp], ?_, ?_⟩
          · intro _
            rcases hs : (round x).sign
            · simp [FPBits.is_neg, hs]
              try ring
            · simp [FPBits.is_neg, hs]
              try ring
          · intro hc
            exact absurd (Or.inr (Or.inr ⟨heq, hbp⟩)) hc
        · rw [if_neg hb]
          have hbp : (round x).sign = true ∧ (round x).mantissa = 0 := by
            unfold FPBits.is_pos FPBits.get_mantissa at hb
            simp only [Bool.or_eq_true, Bool.not_eq_true', bne_iff_ne] at hb
            push_neg at hb
            constructor
            · rcases hs : (round x).sign
              · exact absurd hs hb.1
              · rfl
            · exact hb.2
          refine ⟨?_, ?_, ?_⟩
          · constructor
            · intro hcon
              have hcon2 : noSignals = (⟨true, false, true⟩ : FPEnvSignals) := hcon
              exact absurd hcon2 (by decide)
            · intro hcon
              rcases hcon with h | h | h
              · exact absurd h hinf
              · exact absurd h hgt
              · exact absurd hbp h.2
          · intro hcon
            rcases hcon with h | h | h
            · exact absurd h hinf
            · exact absurd h hgt
            · exact absurd hbp h.2
          · intro _
            exact ⟨rfl, intCast_mul_unit _ hI⟩
      · rw [if_neg heq]
        refine ⟨?_, ?_, ?_⟩
        · constructor
          · intro hcon
            have hcon2 : noSignals = (⟨true, false, true⟩ : FPEnvSignals) := hcon
            exact absurd hcon2 (by decide)
          · intro hcon
            rcases hcon with h | h | h
            · exact absurd h hinf
            · exact absurd h hgt
            · exact absurd h.1 heq
        · intro hcon
          rcases hcon with h | h | h
          · exact absurd h hinf
          · exact absurd h hgt
          · exact absurd h.1 heq
        · intro _
          exact ⟨rfl, intCast_mul_unit _ hI⟩

/-- Witness for claim C6: round(2.5) = 3 fits a 4-bit signed type exactly
(scaled check), while the boundary -8 = -2^3 also converts without error. -/
theorem claim_C6_witness :
    ((round_to_signed_integer 4 (FPBits.mk false 8 2 : FPBits mini8)).2 =
        noSignals ∧
      (round_to_signed_integer 4 (FPBits.mk false 8 2 : FPBits mini8)).1 *
        2 ^ mini8.unitExp = (round (FPBits.mk false 8 2 : FPBits mini8)).scaled) ∧
    (round_to_signed_integer 2 (FPBits.mk false 8 2 : FPBits mini8)).1 =
      (if (round (FPBits.mk false 8 2 : FPBits mini8)).sign
       then -(2 ^ (2 - 1) : Int) else 2 ^ (2 - 1) - 1) :=
  ⟨(claim_C6 (by decide) (FPBits.mk false 8 2 : FPBits mini8) (by decide) 4
      (by decide)).2.2 (by decide),
   (claim_C6 (by decide) (FPBits.mk false 8 2 : FPBits mini8) (by decide) 2
      (by decide)).2.1 (by decide)⟩

lemma not_nan_of_not_inf (b : FPBits fmt) (h : b.is_inf_or_nan = false) :
    b.is_nan = false := by
  unfold FPBits.is_inf_or_nan at h
  unfold FPBits.is_nan
  rw [h]
  rfl

lemma create_value_fields (s : Bool) (k : Nat) (hk : k < 2 ^ fmt.exp_len) :
    FPBits.create_value fmt s k 0 = ⟨s, k, 0⟩ := by
  unfold FPBits.create_value
  rw [Nat.mod_eq_of_lt hk, Nat.zero_mod]

lemma two_pow_exp_len (hG : fmt.Good) : 2 ^ fmt.exp_len = 2 * fmt.EXP_BIAS + 2 := by
  have h := exp_all_ones hG
  have : (0:Nat) < 2 ^ fmt.exp_len := Nat.pos_pow_of_pos _ (by norm_num)
  omega

lemma scaled_create_pow (hG : fmt.Good) (s : Bool) (k : Nat) (h1 : 1 ≤ k)
    (h2 : k ≤ 2 * fmt.EXP_BIAS) :
    (FPBits.create_value fmt s k 0).scaled =
      sgnInt s * 2 ^ (fmt.fraction_len + k - 1) := by
  have hk : k < 2 ^ fmt.exp_len := by
    rw [two_pow_exp_len hG]
    omega
  rw [create_value_fields s k hk, scaled_eq_sgn_mag, magScaled_mk _ _ _ (by omega)]
  simp only [mk_sign]
  congr 1
  rw [Nat.add_zero, ← pow_add]
  push_cast
  congr 1
  omega

lemma floorMag_create_pow (hG : fmt.Good) (s : Bool) (k : Nat)
    (h1 : fmt.EXP_BIAS ≤ k) (h2 : k ≤ 2 * fmt.EXP_BIAS) :
    (FPBits.create_value fmt s k 0).floorMag = 2 ^ (k - fmt.EXP_BIAS) := by
  have hbias := EXP_BIAS_pos hG
  have hk : k < 2 ^ fmt.exp_len := by
    rw [two_pow_exp_len hG]
    omega
  rw [floorMag_eq, create_value_fields s k hk, magScaled_mk _ _ _ (by omega),
    Nat.add_zero, ← pow_add]
  rw [Nat.pow_div (by unfold FPFormat.unitExp; omega) (by norm_num)]
  congr 1
  unfold FPFormat.unitExp
  omega

lemma create_not_nan (s : Bool) (k : Nat) :
    (FPBits.create_value fmt s k 0).is_nan = false := by
  unfold FPBits.create_value FPBits.is_nan
  simp

lemma roundNatRNE_not_inf (hG : fmt.Good) (s : Bool) (n : Nat)
    (hn : n < 2 ^ (fmt.fraction_len + 1)) :
    (roundNatRNE fmt s n).is_inf_or_nan = false := by
  obtain ⟨hG1, hG2, hG3⟩ := hG
  have hbias := EXP_BIAS_pos ⟨hG1, hG2, hG3⟩
  have hle := roundNatRNE_exact_biased_le s n hn
  exact not_inf_or_nan _ ⟨hG1, hG2, hG3⟩ (by omega)

lemma magScaled_le_max_finite (b : FPBits fmt) (hG : fmt.Good) (hV : b.Valid)
    (hbe : b.biased_exp ≤ 2 * fmt.EXP_BIAS) :
    b.magScaled ≤ (2 ^ (fmt.fraction_len + 1) - 1) * 2 ^ (2 * fmt.EXP_BIAS - 1) := by
  have hbias := EXP_BIAS_pos hG
  obtain ⟨-, hVm⟩ := hV
  have hone : (1:Nat) ≤ 2 ^ (2 * fmt.EXP_BIAS - 1) := Nat.one_le_two_pow
  by_cases h0 : b.biased_exp = 0
  · rw [magScaled_zero_exp b h0]
    have h1 : b.mantissa ≤ 2 ^ (fmt.fraction_len + 1) - 1 := by
      have : 2 ^ fmt.fraction_len ≤ 2 ^ (fmt.fraction_len + 1) := by
        rw [pow_succ]
        omega
      omega
    calc b.mantissa ≤ 2 ^ (fmt.fraction_len + 1) - 1 := h1
      _ = (2 ^ (fmt.fraction_len + 1) - 1) * 1 := by ring
      _ ≤ (2 ^ (fmt.fraction_len + 1) - 1) * 2 ^ (2 * fmt.EXP_BIAS - 1) :=
        Nat.mul_le_mul_left _ hone
  · rw [magScaled_pos_exp b h0]
    apply Nat.mul_le_mul
    · rw [pow_succ]
      omega
    · exact Nat.pow_le_pow_right (by norm_num) (by omega)

lemma abs_scaled_le_max_finite (b : FPBits fmt) (hG : fmt.Good) (hV : b.Valid)
    (hFin : b.is_inf_or_nan = false) :
    |b.scaled| ≤ ((2 ^ (fmt.fraction_len + 1) - 1) *
      2 ^ (2 * fmt.EXP_BIAS - 1) : Nat) := by
  have hbe : b.biased_exp ≤ 2 * fmt.EXP_BIAS := by
    unfold FPBits.is_inf_or_nan at hFin
    rw [exp_all_ones hG] at hFin
    simp only [beq_eq_false_iff_ne, ne_eq] at hFin
    obtain ⟨hVe, -⟩ := hV
    rw [two_pow_exp_len hG] at hVe
    omega
  rw [abs_scaled]
  exact_mod_cast magScaled_le_max_finite b hG hV hbe

lemma rusm_valid (b : FPBits fmt) (rnd : Int) (hG : fmt.Good) (hV : b.Valid) :
    (round_using_specific_rounding_mode b rnd).Valid := by
  by_cases hc : (b.is_inf_or_nan || b.is_zero) = true
  · rw [rusm_pass b rnd (by simpa using hc)]
    exact hV
  · have hnz : b.is_zero = false := by
      rcases hz : b.is_zero
      · rfl
      · rw [hz] at hc
        simp at hc
    by_cases htop : fmt.fraction_len + fmt.EXP_BIAS ≤ b.biased_exp
    · rw [rusm_top b rnd htop]
      exact hV
    · by_cases hsmall : b.biased_exp < fmt.EXP_BIAS
      · rw [rusm_small b rnd hG hnz hsmall]
        repeat
          first
          | exact one_valid hG _
          | exact zero_valid _
          | split
      · by_cases hI : b.mantissa %
            2 ^ (fmt.fraction_len + fmt.EXP_BIAS - b.biased_exp) = 0
        · rw [rusm_mid_integral b rnd hG (by omega) (by omega) hI]
          exact hV
        · rw [rusm_mid_frac b rnd hG hV (by omega) (by omega) hI]
          repeat
            first
            | exact trunc_valid b hG hV
            | exact awayOne_valid hG _ (trunc_away_bound b hG hV (by omega))
            | exact two_valid hG _
            | split

lemma rusm_not_inf (b : FPBits fmt) (rnd : Int) (hG : fmt.Good) (hV : b.Valid)
    (hFin : b.is_inf_or_nan = false) :
    (round_using_specific_rounding_mode b rnd).is_inf_or_nan = false := by
  have hGc := hG
  obtain ⟨hG1, hG2, hG3⟩ := hGc
  have hbias := EXP_BIAS_pos hG
  by_cases hc : (b.is_inf_or_nan || b.is_zero) = true
  · rw [rusm_pass b rnd (by simpa using hc)]
    exact hFin
  · have hnz : b.is_zero = false := by
      rcases hz : b.is_zero
      · rfl
      · rw [hz] at hc
        simp at hc
    by_cases htop : fmt.fraction_len + fmt.EXP_BIAS ≤ b.biased_exp
    · rw [rusm_top b rnd htop]
      exact hFin
    · by_cases hsmall : b.biased_exp < fmt.EXP_BIAS
      · rw [rusm_small b rnd hG hnz hsmall]
        repeat
          first
          | exact not_inf_or_nan _ hG (by simp only [FPBits.one, mk_biased_exp]; omega)
          | exact not_inf_or_nan _ hG (by simp only [FPBits.zero, mk_biased_exp]; omega)
          | split
      · by_cases hI : b.mantissa %
            2 ^ (fmt.fraction_len + fmt.EXP_BIAS - b.biased_exp) = 0
        · rw [rusm_mid_integral b rnd hG (by omega) (by omega) hI]
          exact hFin
        · rw [rusm_mid_frac b rnd hG hV (by omega) (by omega) hI]
          have htrb : (trunc b).biased_exp = b.biased_exp := by
            rw [trunc_mid b hG (by omega) (by omega)]
          have haway : (awayOne (trunc b)).is_inf_or_nan = false := by
            unfold awayOne
            exact roundNatRNE_not_inf hG _ _ (trunc_away_bound b hG hV (by omega))
          repeat
            first
            | exact not_inf_or_nan _ hG (by rw [htrb]; omega)
            | exact haway
            | exact not_inf_or_nan _ hG (by simp only [FPBits.two, mk_biased_exp]; omega)
            | split

lemma pow_mul_unit (hG : fmt.Good) (a : Nat) :
    (2:Int) ^ a * 2 ^ fmt.unitExp =
      2 ^ (fmt.fraction_len + (a + fmt.EXP_BIAS) - 1) := by
  have := EXP_BIAS_pos hG
  rw [← pow_add]
  congr 1
  unfold FPFormat.unitExp
  omega

lemma fpSubOne_create_pow (hG : fmt.Good) (k : Nat) (hk1 : fmt.EXP_BIAS ≤ k)
    (hk2 : k ≤ 2 * fmt.EXP_BIAS) :
    fpSubOne (FPBits.create_value fmt false k 0) =
      roundNatRNE fmt false (2 ^ (k - fmt.EXP_BIAS) - 1) := by
  unfold fpSubOne
  rw [floorMag_create_pow hG false k hk1 hk2]
  rfl

lemma scaled_roundNatRNE_exact (hG : fmt.Good) (n : Nat)
    (hn : n < 2 ^ (fmt.fraction_len + 1)) :
    (roundNatRNE fmt false n).scaled = (n : Int) * 2 ^ fmt.unitExp := by
  rw [scaled_eq_sgn_mag, roundNatRNE_sign,
    roundNatRNE_exact_magScaled hG false n hn]
  unfold sgnInt
  push_cast
  ring

lemma zero_nan_false (s : Bool) : (FPBits.zero fmt s).is_nan = false := by
  unfold FPBits.is_nan FPBits.zero
  simp

lemma fpLt_eq_decide (a b : FPBits fmt) (ha : a.is_nan = false)
    (hb : b.is_nan = false) :
    fpLt a b = decide (a.scaled < b.scaled) := by
  unfold fpLt
  rw [ha, hb]
  simp

/-- The bound used to show no finite value can be out of range in fromfp's
skipped-check branches: the largest finite magnitude is below
2 ^ (FRACTION_LEN + 2 EXP_BIAS). -/
lemma max_finite_lt (hG : fmt.Good) (c : Nat) (hc : fmt.EXP_BIAS + 1 ≤ c) :
    ((2 ^ (fmt.fraction_len + 1) - 1) * 2 ^ (2 * fmt.EXP_BIAS - 1) : Nat) <
      2 ^ c * 2 ^ fmt.unitExp := by
  have hbias := EXP_BIAS_pos hG
  have e1 : (2:Nat) ^ (fmt.fraction_len + 1) * 2 ^ (2 * fmt.EXP_BIAS - 1) =
      2 ^ (fmt.EXP_BIAS + 1) * 2 ^ fmt.unitExp := by
    rw [← pow_add, ← pow_add]
    congr 1
    unfold FPFormat.unitExp
    omega
  have e2 : (2:Nat) ^ (fmt.EXP_BIAS + 1) * 2 ^ fmt.unitExp ≤
      2 ^ c * 2 ^ fmt.unitExp :=
    Nat.mul_le_mul_right _ (Nat.pow_le_pow_right (by norm_num) hc)
  have e3 : ((2 ^ (fmt.fraction_len + 1) - 1) * 2 ^ (2 * fmt.EXP_BIAS - 1) : Nat) <
      2 ^ (fmt.fraction_len + 1) * 2 ^ (2 * fmt.EXP_BIAS - 1) := by
    have h1 : (0:Nat) < 2 ^ (2 * fmt.EXP_BIAS - 1) := Nat.pos_pow_of_pos _ (by norm_num)
    have h2 : (0:Nat) < 2 ^ (fmt.fraction_len + 1) := Nat.pos_pow_of_pos _ (by norm_num)
    exact (mul_lt_mul_right h1).mpr (by omega)
  omega

/-- Claim C1 (amended): fromfp rejections signal only the invalid-operation
exception and return a quiet NaN; the errno-style domain-error channel is
never touched, and the inexact flag is never raised.  Rejection is proved for
every rounded value below the signed minimum, for every negative rounded
value in the unsigned variant, and for rounded values above the domain
maximum whenever the maximum 2^(width-1)-1 (signed, width ≤ FRACTION_LEN+2)
or 2^width-1 (unsigned, width ≤ FRACTION_LEN+1) is exactly representable;
for larger widths the upper boundary constant itself is rounded and the
comparison no longer matches 2^(width-1)-1 (see the counterexample). -/
theorem claim_C1 (hG : fmt.Good) (isSigned : Bool) (x : FPBits fmt)
    (hV : x.Valid) (hFin : x.is_inf_or_nan = false) (rnd : Int) (width : Nat)
    (hw : 1 ≤ width) :
    ((fromfp isSigned x rnd width).2.errno_edom = false ∧
      (fromfp isSigned x rnd width).2.inexact = false) ∧
    (isSigned = true →
      (round_using_specific_rounding_mode x rnd).scaled <
          -((2:Int) ^ (width - 1) * 2 ^ fmt.unitExp) →
      fromfp isSigned x rnd width =
        (FPBits.quiet_nan fmt, ⟨true, false, false⟩)) ∧
    (isSigned = true → width ≤ fmt.fraction_len + 2 →
      ((2:Int) ^ (width - 1) - 1) * 2 ^ fmt.unitExp <
          (round_using_specific_rounding_mode x rnd).scaled →
      fromfp isSigned x rnd width =
        (FPBits.quiet_nan fmt, ⟨true, false, false⟩)) ∧
    (isSigned = false →
      (round_using_specific_rounding_mode x rnd).scaled < 0 →
      fromfp isSigned x rnd width =
        (FPBits.quiet_nan fmt, ⟨true, false, false⟩)) ∧
    (isSigned = false → width ≤ fmt.fraction_len + 1 →
      ((2:Int) ^ width - 1) * 2 ^ fmt.unitExp <
          (round_using_specific_rounding_mode x rnd).scaled →
      fromfp isSigned x rnd width =
        (FPBits.quiet_nan fmt, ⟨true, false, false⟩)) := by
  have hGc := hG
  obtain ⟨hG1, hG2, hG3⟩ := hGc
  have hbias := EXP_BIAS_pos hG
  have hrV := rusm_valid x rnd hG hV
  have hrFin := rusm_not_inf x rnd hG hV hFin
  have hrNan := not_nan_of_not_inf _ hrFin
  have hmaxabs := abs_scaled_le_max_finite _ hG hrV hrFin
  refine ⟨⟨fromfp_errno_false isSigned x rnd width,
    fromfp_inexact_false isSigned x rnd width⟩, ?_, ?_, ?_, ?_⟩
  · intro hs hlt
    subst hs
    simp only [fromfp]
    rw [if_neg (by omega), if_neg (by simp [hFin]), if_pos trivial]
    by_cases hskip : fmt.EXP_BIAS < width - 1
    · exfalso
      have hN := max_finite_lt hG (width - 1) (by omega)
      have hNi : (((2 ^ (fmt.fraction_len + 1) - 1) *
          2 ^ (2 * fmt.EXP_BIAS - 1) : Nat) : Int) <
          (2:Int) ^ (width - 1) * 2 ^ fmt.unitExp := by
        exact_mod_cast hN
      have habs : -(round_using_specific_rounding_mode x rnd).scaled ≤
          |(round_using_specific_rounding_mode x rnd).scaled| := by
        rw [← abs_neg]
        exact le_abs_self _
      linarith [hmaxabs]
    · rw [if_neg hskip]
      have hminsc : (FPBits.create_value fmt true
          (width - 1 + fmt.EXP_BIAS) 0).scaled =
          -((2:Int) ^ (width - 1) * 2 ^ fmt.unitExp) := by
        rw [scaled_create_pow hG true _ (by omega) (by omega),
          pow_mul_unit hG]
        unfold sgnInt
        simp
      have hcond : fpLt (round_using_specific_rounding_mode x rnd)
          (FPBits.create_value fmt true (width - 1 + fmt.EXP_BIAS) 0) = true := by
        rw [fpLt_eq_decide _ _ hrNan (create_not_nan _ _), hminsc]
        exact decide_eq_true hlt
      rw [if_pos hcond]
  · intro hs hwF hgt
    subst hs
    simp only [fromfp]
    rw [if_neg (by omega), if_neg (by simp [hFin]), if_pos trivial]
    have h2p : (0:Int) < 2 ^ (width - 1) := pow_pos (by norm_num) _
    have hup : (0:Int) < 2 ^ fmt.unitExp := pow_pos (by norm_num) _
    have hgt0 : (0:Int) ≤ ((2:Int) ^ (width - 1) - 1) * 2 ^ fmt.unitExp :=
      mul_nonneg (by omega) (le_of_lt hup)
    by_cases hskip : fmt.EXP_BIAS < width - 1
    · exfalso
      have hwE : width - 1 = fmt.fraction_len + 1 := by omega
      have hmf : ((2 ^ (fmt.fraction_len + 1) - 1) *
          2 ^ (2 * fmt.EXP_BIAS - 1) : Nat) =
          (2 ^ (fmt.fraction_len + 1) - 1) * 2 ^ fmt.unitExp := by
        congr 2
        unfold FPFormat.unitExp
        omega
      have hle : (round_using_specific_rounding_mode x rnd).scaled ≤
          (((2 ^ (fmt.fraction_len + 1) - 1) * 2 ^ fmt.unitExp : Nat) : Int) := by
        rw [hmf] at hmaxabs
        calc (round_using_specific_rounding_mode x rnd).scaled ≤
            |(round_using_specific_rounding_mode x rnd).scaled| := le_abs_self _
          _ ≤ _ := hmaxabs
      have h1n : (1:Nat) ≤ 2 ^ (fmt.fraction_len + 1) := Nat.one_le_two_pow
      have hcast : (((2 ^ (fmt.fraction_len + 1) - 1) *
          2 ^ fmt.unitExp : Nat) : Int) =
          ((2:Int) ^ (width - 1) - 1) * 2 ^ fmt.unitExp := by
        rw [hwE]
        push_cast [h1n]
        ring
      rw [hcast] at hle
      linarith
    · rw [if_neg hskip]
      have hminsc : (FPBits.create_value fmt true
          (width - 1 + fmt.EXP_BIAS) 0).scaled =
          -((2:Int) ^ (width - 1) * 2 ^ fmt.unitExp) := by
        rw [scaled_create_pow hG true _ (by omega) (by omega),
          pow_mul_unit hG]
        unfold sgnInt
        simp
      have hcond1 : fpLt (round_using_specific_rounding_mode x rnd)
          (FPBits.create_value fmt true (width - 1 + fmt.EXP_BIAS) 0) = false := by
        rw [fpLt_eq_decide _ _ hrNan (create_not_nan _ _), hminsc]
        apply decide_eq_false
        intro hcon
        nlinarith
      rw [if_neg (by simp [hcond1])]
      have hsub := fpSubOne_create_pow hG (width - 1 + fmt.EXP_BIAS)
        (by omega) (by omega)
      have hkb : width - 1 + fmt.EXP_BIAS - fmt.EXP_BIAS = width - 1 := by omega
      rw [hkb] at hsub
      have hn : 2 ^ (width - 1) - 1 < 2 ^ (fmt.fraction_len + 1) := by
        have h1 : (2:Nat) ^ (width - 1) ≤ 2 ^ (fmt.fraction_len + 1) :=
          Nat.pow_le_pow_right (by norm_num) (by omega)
        have h2 : (0:Nat) < 2 ^ (width - 1) := Nat.pos_pow_of_pos _ (by norm_num)
        omega
      have hmaxsc : (fpSubOne (FPBits.create_value fmt false
          (width - 1 + fmt.EXP_BIAS) 0)).scaled =
          ((2 ^ (width - 1) - 1 : Nat) : Int) * 2 ^ fmt.unitExp := by
        rw [hsub]
        exact scaled_roundNatRNE_exact hG _ hn
      have hmaxnan : (fpSubOne (FPBits.create_value fmt false
          (width - 1 + fmt.EXP_BIAS) 0)).is_nan = false := by
        rw [hsub]
        exact not_nan_of_not_inf _ (roundNatRNE_not_inf hG _ _ hn)
      have h1w : (1:Nat) ≤ 2 ^ (width - 1) := Nat.one_le_two_pow
      have hcast : ((2 ^ (width - 1) - 1 : Nat) : Int) =
          (2:Int) ^ (width - 1) - 1 := by
        push_cast [h1w]
        ring
      have hcond2 : fpLt (fpSubOne (FPBits.create_value fmt false
          (width - 1 + fmt.EXP_BIAS) 0))
          (round_using_specific_rounding_mode x rnd) = true := by
        rw [fpLt_eq_decide _ _ hmaxnan hrNan, hmaxsc, hcast]
        exact decide_eq_true hgt
      rw [if_pos hcond2]
  · intro hs hlt
    subst hs
    simp only [fromfp]
    rw [if_neg (by omega), if_neg (by simp [hFin]),
      if_neg (by exact Bool.false_ne_true)]
    have hcond : fpLt (round_using_specific_rounding_mode x rnd)
        (FPBits.zero fmt false) = true := by
      rw [fpLt_eq_decide _ _ hrNan (zero_nan_false false), scaled_zero]
      exact decide_eq_true hlt
    rw [if_pos hcond]
  · intro hs hwF hgt
    subst hs
    simp only [fromfp]
    rw [if_neg (by omega), if_neg (by simp [hFin]),
      if_neg (by exact Bool.false_ne_true)]
    have h2p : (0:Int) < 2 ^ width := pow_pos (by norm_num) _
    have hup : (0:Int) < 2 ^ fmt.unitExp := pow_pos (by norm_num) _
    have hgt0 : (0:Int) ≤ ((2:Int) ^ width - 1) * 2 ^ fmt.unitExp :=
      mul_nonneg (by omega) (le_of_lt hup)
    have hcond0 : fpLt (round_using_specific_rounding_mode x rnd)
        (FPBits.zero fmt false) = false := by
      rw [fpLt_eq_decide _ _ hrNan (zero_nan_false false), scaled_zero]
      apply decide_eq_false
      intro hcon
      linarith
    rw [if_neg (by simp [hcond0])]
    by_cases hskip : fmt.EXP_BIAS < width
    · exfalso
      have hwE : width = fmt.fraction_len + 1 := by omega
      have hmf : ((2 ^ (fmt.fraction_len + 1) - 1) *
          2 ^ (2 * fmt.EXP_BIAS - 1) : Nat) =
          (2 ^ (fmt.fraction_len + 1) - 1) * 2 ^ fmt.unitExp := by
        congr 2
        unfold FPFormat.unitExp
        omega
      have hle : (round_using_specific_rounding_mode x rnd).scaled ≤
          (((2 ^ (fmt.fraction_len + 1) - 1) * 2 ^ fmt.unitExp : Nat) : Int) := by
        rw [hmf] at hmaxabs
        calc (round_using_specific_rounding_mode x rnd).scaled ≤
            |(round_using_specific_rounding_mode x rnd).scaled| := le_abs_self _
          _ ≤ _ := hmaxabs
      have h1n : (1:Nat) ≤ 2 ^ (fmt.fraction_len + 1) := Nat.one_le_two_pow
      have hcast : (((2 ^ (fmt.fraction_len + 1) - 1) *
          2 ^ fmt.unitExp : Nat) : Int) =
          ((2:Int) ^ width - 1) * 2 ^ fmt.unitExp := by
        rw [hwE]
        push_cast [h1n]
        ring
      rw [hcast] at hle
      linarith
    · rw [if_neg hskip]
      have hsub := fpSubOne_create_pow hG (width + fmt.EXP_BIAS)
        (by omega) (by omega)
      have hkb : width + fmt.EXP_BIAS - fmt.EXP_BIAS = width := by omega
      rw [hkb] at hsub
      have hn : 2 ^ width - 1 < 2 ^ (fmt.fraction_len + 1) := by
        have h1 : (2:Nat) ^ width ≤ 2 ^ (fmt.fraction_len + 1) :=
          Nat.pow_le_pow_right (by norm_num) (by omega)
        have h2 : (0:Nat) < 2 ^ width := Nat.pos_pow_of_pos _ (by norm_num)
        omega
      have hmaxsc : (fpSubOne (FPBits.create_value fmt false
          (width + fmt.EXP_BIAS) 0)).scaled =
          ((2 ^ width - 1 : Nat) : Int) * 2 ^ fmt.unitExp := by
        rw [hsub]
        exact scaled_roundNatRNE_exact hG _ hn
      have hmaxnan : (fpSubOne (FPBits.create_value fmt false
          (width + fmt.EXP_BIAS) 0)).is_nan = false := by
        rw [hsub]
        exact not_nan_of_not_inf _ (roundNatRNE_not_inf hG _ _ hn)
      have h1w : (1:Nat) ≤ 2 ^ width := Nat.one_le_two_pow
      have hcast : ((2 ^ width - 1 : Nat) : Int) = (2:Int) ^ width - 1 := by
        push_cast [h1w]
        ring
      have hcond2 : fpLt (fpSubOne (FPBits.create_value fmt false
          (width + fmt.EXP_BIAS) 0))
          (round_using_specific_rounding_mode x rnd) = true := by
        rw [fpLt_eq_decide _ _ hmaxnan hrNan, hmaxsc, hcast]
        exact decide_eq_true hgt
      rw [if_pos hcond2]

/-- Counterexample to claim C1 as stated, in the 8-bit minifloat (FRACTION_LEN
3, EXP_BIAS 7), signed width 6 (domain maximum 2^5 - 1 = 31):
(a) for x = 64, the rounded value 64 lies outside the domain and fromfp does
reject it, but only the invalid-operation flag is raised - the errno-style
domain-error channel stays untouched, contradicting the claim; (b) for
x = 32, the rounded value 32 also lies outside the domain (32 > 31), yet
fromfp raises nothing and returns 32 itself rather than a quiet NaN, because
its range_max constant 2^5 - 1.0 rounds to 32.0 in the float format. -/
theorem claim_C1_counterexample :
    ((round_using_specific_rounding_mode (FPBits.mk false 13 0 : FPBits mini8)
        FP_INT_TOWARDZERO).scaled = 64 * 2 ^ mini8.unitExp ∧
      ((2:Int) ^ (6 - 1) - 1) * 2 ^ mini8.unitExp <
        (round_using_specific_rounding_mode (FPBits.mk false 13 0 : FPBits mini8)
          FP_INT_TOWARDZERO).scaled ∧
      (fromfp true (FPBits.mk false 13 0 : FPBits mini8) FP_INT_TOWARDZERO 6).2 =
        (⟨true, false, false⟩ : FPEnvSignals)) ∧
    (((2:Int) ^ (6 - 1) - 1) * 2 ^ mini8.unitExp <
        (round_using_specific_rounding_mode (FPBits.mk false 12 0 : FPBits mini8)
          FP_INT_TOWARDZERO).scaled ∧
      fromfp true (FPBits.mk false 12 0 : FPBits mini8) FP_INT_TOWARDZERO 6 =
        (FPBits.mk false 12 0, noSignals) ∧
      (fromfp true (FPBits.mk false 12 0 : FPBits mini8)
        FP_INT_TOWARDZERO 6).1.is_nan = false) := by
  decide

/-- Witness for the amended claim C1: in the 8-bit minifloat, converting 12
to a signed width-4 domain (maximum 7) rejects with a quiet NaN and only the
invalid flag. -/
theorem claim_C1_witness :
    fromfp true (FPBits.mk false 10 4 : FPBits mini8) FP_INT_TOWARDZERO 4 =
      (FPBits.quiet_nan mini8, ⟨true, false, false⟩) ∧
    (fromfp true (FPBits.mk false 10 4 : FPBits mini8)
      FP_INT_TOWARDZERO 4).2.errno_edom = false :=
  ⟨(claim_C1 (by decide) true (FPBits.mk false 10 4 : FPBits mini8) (by decide)
      (by decide) FP_INT_TOWARDZERO 4 (by decide)).2.2.1 rfl (by decide)
      (by decide),
   (claim_C1 (by decide) true (FPBits.mk false 10 4 : FPBits mini8) (by decide)
      (by decide) FP_INT_TOWARDZERO 4 (by decide)).1.1⟩

/-- Claim C7: for finite x, trunc x has the same sign as x (a signed zero for
|x| < 1), its magnitude is at most that of x, the discarded difference has
magnitude < 1 (i.e. < 2 ^ unitExp in scaled semantics), and x with exponent
at least FRACTION_LEN is returned unchanged. -/
theorem claim_C7 (hG : fmt.Good) (x : FPBits fmt) (hV : x.Valid)
    (hFin : x.is_inf_or_nan = false) :
    (trunc x).sign = x.sign ∧
    (x.get_exponent ≤ -1 → trunc x = FPBits.zero fmt x.sign) ∧
    |(trunc x).scaled| ≤ |x.scaled| ∧
    |x.scaled - (trunc x).scaled| < 2 ^ fmt.unitExp ∧
    ((fmt.fraction_len : Int) ≤ x.get_exponent → trunc x = x) := by
  have hsign := trunc_sign x hG
  have hle := trunc_magScaled_le x hG
  have hdiff := trunc_magScaled_diff_lt x hG hV
  refine ⟨hsign, ?_, ?_, ?_, ?_⟩
  · intro h
    apply trunc_small x hG
    unfold FPBits.get_exponent at h
    omega
  · rw [abs_scaled, abs_scaled]
    exact_mod_cast hle
  · have heq : x.scaled - (trunc x).scaled =
        sgnInt x.sign * ((x.magScaled : Int) - ((trunc x).magScaled : Int)) := by
      rw [scaled_eq_sgn_mag, scaled_eq_sgn_mag, hsign]
      ring
    rw [heq, sgnInt_mul_abs]
    have hcast : ((trunc x).magScaled : Int) ≤ (x.magScaled : Int) := by
      exact_mod_cast hle
    rw [abs_of_nonneg (Int.sub_nonneg.mpr hcast)]
    zify [hle] at hdiff
    exact hdiff
  · intro h
    apply trunc_top x
    unfold FPBits.get_exponent at h
    omega

/-- Witness for claim C7 at x = 2.5 in the 8-bit minifloat format. -/
theorem claim_C7_witness :
    mini8.Good ∧ (FPBits.mk false 8 2 : FPBits mini8).Valid ∧
    ((trunc (FPBits.mk false 8 2 : FPBits mini8)).sign = false ∧
      |(FPBits.mk false 8 2 : FPBits mini8).scaled -
        (trunc (FPBits.mk false 8 2 : FPBits mini8)).scaled| < 2 ^ mini8.unitExp) :=
  ⟨by decide, by decide,
    (claim_C7 (by decide) (FPBits.mk false 8 2 : FPBits mini8) (by decide) (by decide)).1,
    (claim_C7 (by decide) (FPBits.mk false 8 2 : FPBits mini8) (by decide) (by decide)).2.2.2.1⟩


end fputil
